import Mathlib

/-!
Verification of the chat-bot core subsystem: crontab day-of-week
conversion, scheduler misfire recovery, fire-time recording order,
interactive rendezvous, channel-state directory invariants, message
splitting, per-channel rate limiting, mention gating, job addition,
and project resolution.

Python strings are modelled as `List Char`; machine integers and
timestamps as `Int`/`Nat`; wall-clock times in the rate limiter as `ℚ`.
-/

namespace CCSlack

/-- Whitespace characters recognised by Python's `str.strip` / `str.split`. -/
def pyIsSpace (c : Char) : Bool :=
  c = ' ' || c = '\t' || c = '\n' || c = '\r' || c = '\x0b' || c = '\x0c'

/-- Python `str.lstrip()` with no arguments. -/
def lstripChars (cs : List Char) : List Char :=
  cs.dropWhile pyIsSpace

/-- Python `str.strip()` with no arguments: drop whitespace at both ends. -/
def trimChars (cs : List Char) : List Char :=
  ((cs.dropWhile pyIsSpace).reverse.dropWhile pyIsSpace).reverse

/-- Python `str.strip(set)`: drop characters of `set` at both ends. -/
def stripSet (set : List Char) (cs : List Char) : List Char :=
  ((cs.dropWhile (set.contains ·)).reverse.dropWhile (set.contains ·)).reverse

/-- Decimal digit test, as in the regex class `\d` (ASCII). -/
def isDigitC (c : Char) : Bool :=
  '0' ≤ c && c ≤ '9'

/-- Value of a decimal digit character. -/
def charToDigit (c : Char) : Option Nat :=
  if isDigitC c then some (c.toNat - 48) else none

/-- Decimal digit character for a value below ten. -/
def digitChar (d : Nat) : Char :=
  Char.ofNat (48 + d)

/-- Digit-accumulating helper for `natToChars`; `fuel` only forces
structural termination and never runs out when `n < fuel`. -/
def natToCharsAux : Nat → Nat → List Char
  | 0, _ => []
  | fuel + 1, n =>
    if n < 10 then [digitChar n]
    else natToCharsAux fuel (n / 10) ++ [digitChar (n % 10)]

/-- Decimal rendering of a natural number, as Python `str(n)`. -/
def natToChars (n : Nat) : List Char :=
  natToCharsAux (n + 1) n

theorem natToCharsAux_fuel (fuel fuel' n : Nat) (h : n < fuel)
    (h' : n < fuel') : natToCharsAux fuel n = natToCharsAux fuel' n := by
  induction fuel generalizing fuel' n with
  | zero => omega
  | succ fuel ih =>
    cases fuel' with
    | zero => omega
    | succ fuel' =>
      simp only [natToCharsAux]
      by_cases h10 : n < 10
      · simp [h10]
      · have hdiv : n / 10 < n := Nat.div_lt_self (by omega) (by omega)
        simp only [h10, if_false]
        rw [ih fuel' (n / 10) (by omega) (by omega)]

/-- Unfolding equation for `natToChars`. -/
theorem natToChars_eq (n : Nat) :
    natToChars n = if n < 10 then [digitChar n]
      else natToChars (n / 10) ++ [digitChar (n % 10)] := by
  show natToCharsAux (n + 1) n = _
  by_cases h10 : n < 10
  · simp [natToCharsAux, h10]
  · have hdiv : n / 10 < n := Nat.div_lt_self (by omega) (by omega)
    simp only [natToCharsAux, h10, if_false]
    rw [natToCharsAux_fuel n (n / 10 + 1) (n / 10) (by omega) (by omega)]
    rfl

/-- Left fold accumulating decimal digits; `none` once a non-digit is hit. -/
def parseNatFold (cs : List Char) (acc : Option Nat) : Option Nat :=
  cs.foldl (fun a c => a.bind fun v => (charToDigit c).map fun d => v * 10 + d) acc

/-- Parse a nonempty all-digit string, as the regex group `(\d+)`. -/
def parseNat (cs : List Char) : Option Nat :=
  if cs.isEmpty then none else parseNatFold cs (some 0)

/-- Python `int(token)` on a stripped token: optional sign, then digits. -/
def parseIntPy (cs : List Char) : Option Int :=
  if cs.head? = some '-' then (parseNat cs.tail).map fun n => -(n : Int)
  else if cs.head? = some '+' then (parseNat cs.tail).map fun n => (n : Int)
  else (parseNat cs).map fun n => (n : Int)

/-- Split a character list on every occurrence of `sep`, Python `s.split(sep)`. -/
def splitOnChar (sep : Char) : List Char → List (List Char)
  | [] => [[]]
  | c :: cs =>
    let r := splitOnChar sep cs
    if c = sep then [] :: r
    else
      match r with
      | [] => [[c]]
      | h :: t => (c :: h) :: t

/-- Join character lists with a comma, as Python `",".join(parts)`. -/
def joinComma : List (List Char) → List Char
  | [] => []
  | [p] => p
  | p :: ps => p ++ ',' :: joinComma ps

/-- Dropping a prefix by a predicate never lengthens a list. -/
theorem dropWhile_length_le (p : Char → Bool) (l : List Char) :
    (l.dropWhile p).length ≤ l.length := by
  induction l with
  | nil => simp
  | cons c cs ih =>
    by_cases h : p c
    · simpa [List.dropWhile, h] using Nat.le_succ_of_le ih
    · simp [List.dropWhile, h]

/-- Fuel-indexed helper for `splitWsPy`; the fuel never runs out when it
exceeds the list length. -/
def splitWsPyAux : Nat → List Char → List (List Char)
  | 0, _ => []
  | _, [] => []
  | fuel + 1, c :: cs =>
    if pyIsSpace c then splitWsPyAux fuel cs
    else (c :: cs.takeWhile (fun x => !pyIsSpace x)) ::
      splitWsPyAux fuel (cs.dropWhile (fun x => !pyIsSpace x))

/-- Python `str.split()` with no arguments: maximal runs of non-whitespace. -/
def splitWsPy (cs : List Char) : List (List Char) :=
  splitWsPyAux (cs.length + 1) cs

/-- Fuel-indexed helper for `rangeStep`; `b + 1 - a` units of fuel always
suffice. -/
def rangeStepAux : Nat → Nat → Nat → Nat → List Nat
  | 0, _, _, _ => []
  | fuel + 1, a, b, s =>
    if s = 0 then []
    else if b < a then []
    else a :: rangeStepAux fuel (a + s) b s

/-- Ascending arithmetic enumeration, Python `range(a, b + 1, s)` for `s ≥ 1`
(a zero step, which Python rejects with an exception, yields `[]` here and is
outside every claim's scope). -/
def rangeStep (a b s : Nat) : List Nat :=
  rangeStepAux (b + 1 - a) a b s

theorem rangeStepAux_fuel (fuel fuel' a b s : Nat) (h : b + 1 - a ≤ fuel)
    (h' : b + 1 - a ≤ fuel') :
    rangeStepAux fuel a b s = rangeStepAux fuel' a b s := by
  induction fuel generalizing fuel' a with
  | zero =>
    have hba : b < a := by omega
    cases fuel' with
    | zero => rfl
    | succ fuel' =>
      simp only [rangeStepAux, if_neg, hba, if_true]
      split <;> simp [hba]
  | succ fuel ih =>
    cases fuel' with
    | zero =>
      have hba : b < a := by omega
      simp only [rangeStepAux]
      split <;> simp [hba]
    | succ fuel' =>
      simp only [rangeStepAux]
      by_cases hs : s = 0
      · simp [hs]
      · by_cases hba : b < a
        · simp [hs, hba]
        · simp only [hs, hba, if_false]
          rw [ih fuel' (a + s) (by omega) (by omega)]

/-- Unfolding equation for `rangeStep`. -/
theorem rangeStep_eq (a b s : Nat) :
    rangeStep a b s = if s = 0 then []
      else if b < a then [] else a :: rangeStep (a + s) b s := by
  show rangeStepAux (b + 1 - a) a b s = _
  by_cases hs : s = 0
  · cases hf : b + 1 - a with
    | zero => simp [rangeStepAux, hs]
    | succ fuel => simp [rangeStepAux, hs]
  · by_cases hba : b < a
    · cases hf : b + 1 - a with
      | zero => simp [rangeStepAux, hs, hba]
      | succ fuel => simp [rangeStepAux, hs, hba]
    · have hf : b + 1 - a = (b - a) + 1 := by omega
      rw [hf]
      simp only [rangeStepAux, hs, hba, if_false]
      rw [show rangeStep (a + s) b s = rangeStepAux (b + 1 - (a + s)) (a + s) b s
        from rfl]
      rw [rangeStepAux_fuel (b - a) (b + 1 - (a + s)) (a + s) b s (by omega)
        (by omega)]

/-! ## Scheduler: crontab day-of-week conversion (`src/scheduler/scheduler.py`) -/

/-- Named days APScheduler understands directly (`_NAMED_DAYS`). -/
def namedDays : List (List Char) :=
  ["mon".data, "tue".data, "wed".data, "thu".data, "fri".data, "sat".data,
   "sun".data]

/-- Mapping from crontab numeric dow (0=Sun .. 6=Sat, 7=Sun alias) to
APScheduler numeric dow (0=Mon .. 6=Sun) (`_CRONTAB_DOW_TO_APSCHEDULER`). -/
def crontabDowToAp : Nat → Option Nat
  | 0 => some 6
  | 1 => some 0
  | 2 => some 1
  | 3 => some 2
  | 4 => some 3
  | 5 => some 4
  | 6 => some 5
  | 7 => some 6
  | _ => none

/-- Dictionary `get` on `_CRONTAB_DOW_TO_APSCHEDULER` for a Python `int`. -/
def crontabDowToApInt (n : Int) : Option Nat :=
  if 0 ≤ n then crontabDowToAp n.toNat else none

/-- Match of the regex `^(\d+)-(\d+)(/\d+)?$`: two numbers and an optional
step, or `none` when the token is not of that shape (`parseNat` succeeds
exactly on nonempty all-digit strings, mirroring `\d+`). -/
def parseRange (cs : List Char) : Option (Nat × Nat × Option Nat) :=
  match cs.dropWhile isDigitC with
  | [] => none
  | d :: r2 =>
    if d = '-' then
      match parseNat (cs.takeWhile isDigitC), parseNat (r2.takeWhile isDigitC) with
      | some a, some b =>
        match r2.dropWhile isDigitC with
        | [] => some (a, b, none)
        | e :: r4 =>
          if e = '/' then
            match parseNat r4 with
            | some s => some (a, b, some s)
            | none => none
          else none
      | _, _ => none
    else none

/-- Render the optional `/step` suffix kept by the regex group 3. -/
def stepSuffix : Option Nat → List Char
  | none => []
  | some s => '/' :: natToChars s

/-- Convert a single crontab day-of-week token to APScheduler convention
(`_convert_dow_token`): named days and wildcards pass through, ranges are
translated endpoint-wise (falling back to an enumerated list when the
converted range would wrap), plain numbers are looked up in the table, and
anything else is returned unchanged for APScheduler to validate. -/
def convertDowToken (token : List Char) : List Char :=
  if namedDays.contains (token.map Char.toLower) then token
  else if token = ['*'] || token = ['?'] then token
  else if token.take 2 = ['*', '/'] || token.take 2 = ['?', '/'] then token
  else
    match parseRange token with
    | some (a, b, stepOpt) =>
      match crontabDowToAp a, crontabDowToAp b with
      | some lo, some hi =>
        if lo ≤ hi then
          natToChars lo ++ '-' :: natToChars hi ++ stepSuffix stepOpt
        else
          let stepVal := stepOpt.getD 1
          let days := (rangeStep a b stepVal).filterMap
            (fun d => (crontabDowToAp d).map natToChars)
          if days.isEmpty then token else joinComma days
      | _, _ => token
    | none =>
      match parseIntPy token with
      | some n =>
        match crontabDowToApInt n with
        | some converted => natToChars converted
        | none => token
      | none => token

/-- Convert a full crontab day-of-week field, comma part by comma part
(`_convert_dow_field`). -/
def convertDowField (field : List Char) : List Char :=
  joinComma ((splitOnChar ',' field).map fun p => convertDowToken (trimChars p))

/-- Trigger fields handed to APScheduler's `CronTrigger` by `parse_crontab`. -/
structure CronFields where
  minute : List Char
  hour : List Char
  day : List Char
  month : List Char
  dayOfWeek : List Char
  deriving DecidableEq, Repr

/-- Parse a standard 5-field crontab expression (`parse_crontab`): split on
whitespace, require exactly five fields, and convert the day-of-week field. -/
def parseCrontabE (expression : List Char) : Except (List Char) CronFields :=
  match splitWsPy (trimChars expression) with
  | [minute, hour, day, month, dow] =>
    .ok ⟨minute, hour, day, month, convertDowField dow⟩
  | fields =>
    .error ("Expected 5-field crontab expression, got ".data ++
      natToChars fields.length)

/-! ### Model of APScheduler's day-of-week semantics

Modelled from the source module docstring of `src/scheduler/scheduler.py`:
APScheduler's native day-of-week convention is 0=Mon .. 6=Sun (the same as
Python's `date.weekday()`), a field is a comma list of tokens, a numeric
token names one weekday, a range `a-b/s` names every `s`-th weekday from
`a` up to `b`, wildcards name all weekdays, and named days `mon..sun` map
to 0..6. -/

/-- Weekdays (Python convention, 0=Mon .. 6=Sun) matched by one APScheduler
day-of-week token. -/
def apTokenDays (t : List Char) : List Nat :=
  match (namedDays.indexOf? (t.map Char.toLower)) with
  | some i => [i]
  | none =>
    if t = ['*'] || t = ['?'] then [0, 1, 2, 3, 4, 5, 6]
    else if t.take 2 = ['*', '/'] then
      match parseNat (t.drop 2) with
      | some s => rangeStep 0 6 s
      | none => []
    else
      match parseRange t with
      | some (a, b, stepOpt) => rangeStep a b (stepOpt.getD 1)
      | none =>
        match parseNat t with
        | some n => if n ≤ 6 then [n] else []
        | none => []

/-- Weekdays (Python convention) matched by an APScheduler day-of-week
field: the union over its comma-separated tokens. -/
def apFieldDays (field : List Char) : List Nat :=
  (splitOnChar ',' field).flatMap apTokenDays

/-- First weekday from `start` (cyclically, Python convention 0=Mon) that
the day-of-week field matches: the weekday of the trigger's next fire. -/
def apNextFireWeekday (field : List Char) (start : Nat) : Option Nat :=
  (List.range 7).findSome? fun k =>
    let w := (start + k) % 7
    if w ∈ apFieldDays field then some w else none

/-! ### Crontab-convention semantics of a numeric day-of-week token -/

/-- Abstract numeric crontab day-of-week tokens covered by the conversion
claim: a bare number, or a numeric range with an optional step. -/
inductive CronDowTok where
  | num (n : Nat)
  | rng (a b : Nat) (step : Option Nat)
  deriving DecidableEq, Repr

/-- Concrete crontab text of an abstract numeric token. -/
def renderTok : CronDowTok → List Char
  | .num n => natToChars n
  | .rng a b step => natToChars a ++ '-' :: natToChars b ++ stepSuffix step

/-- Concrete crontab text of a comma list of numeric tokens. -/
def renderToks (ts : List CronDowTok) : List Char :=
  joinComma (ts.map renderTok)

/-- Weekdays fired by a numeric token under the crontab convention
(0=Sun .. 6=Sat, 7=Sun alias), expressed as Python weekdays (0=Mon). -/
def crontabTokDays : CronDowTok → List Nat
  | .num n => ((crontabDowToAp n).map fun w => [w]).getD []
  | .rng a b step =>
    (rangeStep a b (step.getD 1)).filterMap crontabDowToAp

/-- Well-formed numeric tokens within the conversion claim's scope: days in
0..7, ranges ascending with a positive step, and excluding the degenerate
week-spanning range `0-7` (both endpoints alias Sunday). -/
def WfTok : CronDowTok → Prop
  | .num n => n ≤ 7
  | .rng a b step => a ≤ b ∧ b ≤ 7 ∧ ¬(a = 0 ∧ b = 7) ∧
      (∀ s, step = some s → 1 ≤ s)

instance : DecidablePred WfTok := fun t => by
  cases t with
  | num n => exact inferInstanceAs (Decidable (n ≤ 7))
  | rng a b step => exact inferInstanceAs (Decidable (_ ∧ _ ∧ _ ∧ _))

/-! ### Decimal rendering and parsing roundtrip -/

theorem charToDigit_digitChar (d : Nat) (hd : d < 10) :
    charToDigit (digitChar d) = some d := by
  interval_cases d <;> decide

theorem isDigitC_digitChar (d : Nat) (hd : d < 10) :
    isDigitC (digitChar d) = true := by
  interval_cases d <;> decide

theorem natToChars_ne_nil (n : Nat) : natToChars n ≠ [] := by
  rw [natToChars_eq]
  split <;> simp

theorem natToChars_all_digits (n : Nat) :
    ∀ c ∈ natToChars n, isDigitC c = true := by
  induction n using Nat.strong_induction_on with
  | _ n ih =>
    rw [natToChars_eq]
    split
    · next h =>
      intro c hc
      simp only [List.mem_singleton] at hc
      subst hc
      exact isDigitC_digitChar n h
    · next h =>
      intro c hc
      rcases List.mem_append.mp hc with h1 | h2
      · exact ih (n / 10) (Nat.div_lt_self (by omega) (by omega)) c h1
      · simp only [List.mem_singleton] at h2
        subst h2
        exact isDigitC_digitChar (n % 10) (Nat.mod_lt _ (by omega))

theorem parseNatFold_natToChars (n a : Nat) :
    parseNatFold (natToChars n) (some a) =
      some (a * 10 ^ (natToChars n).length + n) := by
  induction n using Nat.strong_induction_on generalizing a with
  | _ n ih =>
    rw [natToChars_eq]
    split
    · next h =>
      simp [parseNatFold, charToDigit_digitChar n h, Option.bind]
    · next h =>
      have hrec := ih (n / 10) (Nat.div_lt_self (by omega) (by omega)) a
      simp only [parseNatFold, List.foldl_append] at *
      rw [hrec]
      simp [parseNatFold, charToDigit_digitChar (n % 10) (Nat.mod_lt _ (by omega)),
        Option.bind, pow_succ]
      ring_nf
      omega

theorem parseNat_natToChars (n : Nat) : parseNat (natToChars n) = some n := by
  have h := parseNatFold_natToChars n 0
  simp only [parseNat, List.isEmpty_iff]
  rw [if_neg (natToChars_ne_nil n), h]
  simp

/-! ### takeWhile / dropWhile over digit prefixes -/

theorem takeWhile_all (p : Char → Bool) (l : List Char)
    (h : ∀ c ∈ l, p c = true) : l.takeWhile p = l := by
  induction l with
  | nil => rfl
  | cons c cs ih =>
    have hc := h c (by simp)
    simp [List.takeWhile_cons, hc, ih fun x hx => h x (by simp [hx])]

theorem dropWhile_all (p : Char → Bool) (l : List Char)
    (h : ∀ c ∈ l, p c = true) : l.dropWhile p = [] := by
  induction l with
  | nil => rfl
  | cons c cs ih =>
    have hc := h c (by simp)
    simp [List.dropWhile_cons, hc, ih fun x hx => h x (by simp [hx])]

theorem takeWhile_append_stop (p : Char → Bool) (l : List Char) (d : Char)
    (r : List Char) (hl : ∀ c ∈ l, p c = true) (hd : p d = false) :
    (l ++ d :: r).takeWhile p = l := by
  induction l with
  | nil => simp [List.takeWhile_cons, hd]
  | cons c cs ih =>
    have hc := hl c (by simp)
    simp [List.takeWhile_cons, hc, ih fun x hx => hl x (by simp [hx])]

theorem dropWhile_append_stop (p : Char → Bool) (l : List Char) (d : Char)
    (r : List Char) (hl : ∀ c ∈ l, p c = true) (hd : p d = false) :
    (l ++ d :: r).dropWhile p = d :: r := by
  induction l with
  | nil => simp [List.dropWhile_cons, hd]
  | cons c cs ih =>
    have hc := hl c (by simp)
    simp [List.dropWhile_cons, hc, ih fun x hx => hl x (by simp [hx])]

theorem parseRange_render (a b : Nat) (step : Option Nat) :
    parseRange (natToChars a ++ '-' :: natToChars b ++ stepSuffix step) =
      some (a, b, step) := by
  have hminus : isDigitC '-' = false := by decide
  have hslash : isDigitC '/' = false := by decide
  cases step with
  | none =>
    simp only [stepSuffix, List.append_nil, parseRange]
    rw [takeWhile_append_stop _ _ _ _ (natToChars_all_digits a) hminus,
      dropWhile_append_stop _ _ _ _ (natToChars_all_digits a) hminus]
    simp [takeWhile_all _ _ (natToChars_all_digits b),
      dropWhile_all _ _ (natToChars_all_digits b), parseNat_natToChars]
  | some s =>
    simp only [stepSuffix, parseRange, List.cons_append, List.append_assoc]
    rw [takeWhile_append_stop _ _ _ _ (natToChars_all_digits a) hminus,
      dropWhile_append_stop _ _ _ _ (natToChars_all_digits a) hminus]
    simp [takeWhile_append_stop _ _ _ _ (natToChars_all_digits b) hslash,
      dropWhile_append_stop _ _ _ _ (natToChars_all_digits b) hslash,
      parseNat_natToChars]

/-! ### Splitting on commas and joining back -/

theorem splitOnChar_ne_nil (sep : Char) (cs : List Char) :
    splitOnChar sep cs ≠ [] := by
  cases cs with
  | nil => simp [splitOnChar]
  | cons c cs =>
    simp only [splitOnChar]
    split
    · simp
    · split <;> simp

theorem splitOnChar_append_sep (sep : Char) (xs ys : List Char) :
    splitOnChar sep (xs ++ sep :: ys) =
      splitOnChar sep xs ++ splitOnChar sep ys := by
  induction xs with
  | nil => simp [splitOnChar]
  | cons c cs ih =>
    obtain ⟨h, t, ht⟩ : ∃ h t, splitOnChar sep cs = h :: t := by
      cases hsp : splitOnChar sep cs with
      | nil => exact absurd hsp (splitOnChar_ne_nil sep cs)
      | cons h t => exact ⟨h, t, rfl⟩
    by_cases hc : c = sep
    · simp [splitOnChar, hc, ih]
    · simp [splitOnChar, hc, ih, ht]

theorem splitOnChar_no_sep (sep : Char) (cs : List Char)
    (h : sep ∉ cs) : splitOnChar sep cs = [cs] := by
  induction cs with
  | nil => rfl
  | cons c cs ih =>
    have hc : ¬c = sep := fun hh => h (by simp [hh])
    simp only [splitOnChar, hc, if_false]
    rw [ih fun hh => h (by simp [hh])]

/-- The weekdays matched by a comma join are the union over the parts. -/
theorem apFieldDays_joinComma (ps : List (List Char)) :
    apFieldDays (joinComma ps) = ps.flatMap apFieldDays := by
  induction ps with
  | nil => rfl
  | cons p ps ih =>
    cases ps with
    | nil => simp [joinComma]
    | cons q qs =>
      show apFieldDays (p ++ ',' :: joinComma (q :: qs)) = _
      simp only [apFieldDays, splitOnChar_append_sep, List.flatMap_append]
      simp only [apFieldDays] at ih
      rw [ih]
      simp [apFieldDays]

/-! ### rangeStep facts -/

theorem rangeStepAux_mem_bounds (fuel a b s d : Nat)
    (hd : d ∈ rangeStepAux fuel a b s) : a ≤ d ∧ d ≤ b := by
  induction fuel generalizing a with
  | zero => simp [rangeStepAux] at hd
  | succ fuel ih =>
    by_cases hs : s = 0
    · simp [rangeStepAux, hs] at hd
    · by_cases hba : b < a
      · simp [rangeStepAux, hs, hba] at hd
      · rw [rangeStepAux, if_neg hs, if_neg hba] at hd
        rcases List.mem_cons.mp hd with h | h
        · omega
        · have := ih (a + s) h
          omega

theorem rangeStep_mem_bounds (a b s : Nat) (d : Nat)
    (hd : d ∈ rangeStep a b s) : a ≤ d ∧ d ≤ b :=
  rangeStepAux_mem_bounds _ a b s d hd

theorem rangeStepAux_map_sub_one (fuel a b s : Nat) (ha : 1 ≤ a) (hb : 1 ≤ b) :
    (rangeStepAux fuel a b s).map (· - 1) = rangeStepAux fuel (a - 1) (b - 1) s := by
  induction fuel generalizing a with
  | zero => simp [rangeStepAux]
  | succ fuel ih =>
    by_cases hs : s = 0
    · simp [rangeStepAux, hs]
    · by_cases hba : b < a
      · rw [rangeStepAux, if_neg hs, if_pos hba,
          rangeStepAux, if_neg hs, if_pos (by omega)]
        simp
      · rw [rangeStepAux, if_neg hs, if_neg hba,
          rangeStepAux, if_neg hs, if_neg (by omega)]
        simp only [List.map_cons, List.cons.injEq, true_and, eq_self_iff_true]
        have hih := ih (a + s) (by omega)
        rw [hih, show a + s - 1 = a - 1 + s by omega]

theorem rangeStep_map_sub_one (a b s : Nat) (ha : 1 ≤ a) (hb : 1 ≤ b) :
    (rangeStep a b s).map (· - 1) = rangeStep (a - 1) (b - 1) s := by
  show (rangeStepAux (b + 1 - a) a b s).map (· - 1) =
    rangeStepAux ((b - 1) + 1 - (a - 1)) (a - 1) (b - 1) s
  rw [rangeStepAux_map_sub_one _ _ _ _ ha hb]
  exact rangeStepAux_fuel _ _ _ _ _ (by omega) (by omega)

theorem rangeStep_zero_cons (b s : Nat) (hs : 1 ≤ s) :
    rangeStep 0 b s = 0 :: rangeStep s b s := by
  rw [rangeStep_eq, if_neg (by omega), if_neg (by omega), Nat.zero_add]

theorem crontabDowToAp_sub_one (d : Nat) (h1 : 1 ≤ d) (h7 : d ≤ 7) :
    crontabDowToAp d = some (d - 1) := by
  interval_cases d <;> rfl

theorem filterMap_crontabDowToAp (l : List Nat)
    (h : ∀ d ∈ l, 1 ≤ d ∧ d ≤ 7) :
    l.filterMap crontabDowToAp = l.map (· - 1) := by
  induction l with
  | nil => rfl
  | cons d ds ih =>
    have hd := h d (by simp)
    simp only [List.filterMap_cons, List.map_cons,
      crontabDowToAp_sub_one d hd.1 hd.2]
    rw [ih fun x hx => h x (by simp [hx])]

/-! ### Rendered numeric tokens: shape facts -/

theorem toLower_digit (c : Char) (hc : isDigitC c = true) :
    Char.toLower c = c := by
  simp only [isDigitC, Bool.and_eq_true, decide_eq_true_eq] at hc
  have h : Char.toNat c ≤ 57 := by
    have h2 := hc.2
    simp only [Char.le_def] at h2
    simp only [Char.toNat]
    exact UInt32.le_def.mp h2
  simp only [Char.toLower]
  rw [if_neg (by omega)]

theorem not_mem_of_all_digits (c : Char) (l : List Char)
    (hl : ∀ x ∈ l, isDigitC x = true) (hc : isDigitC c = false) : c ∉ l :=
  fun hmem => by simp [hl c hmem] at hc

/-- A token whose first character is a digit is not a named day. -/
theorem digit_head_not_named (c : Char) (l : List Char)
    (hc : isDigitC c = true) :
    (c :: l).map Char.toLower ∉ namedDays := by
  intro hmem
  rw [List.map_cons, toLower_digit c hc] at hmem
  simp only [namedDays, List.mem_cons, List.not_mem_nil, or_false] at hmem
  rcases hmem with h | h | h | h | h | h | h <;>
    · injection h with h1 _
      subst h1
      simp [isDigitC] at hc

theorem named_contains_digit_head (c : Char) (l : List Char)
    (hc : isDigitC c = true) :
    namedDays.contains ((c :: l).map Char.toLower) = false := by
  simpa using digit_head_not_named c l hc

/-- Crontab-to-Python weekday conversion as a total function on 0..7. -/
def convDay (d : Nat) : Nat :=
  if d = 0 then 6 else d - 1

theorem crontabDowToAp_convDay (d : Nat) (hd : d ≤ 7) :
    crontabDowToAp d = some (convDay d) := by
  interval_cases d <;> rfl

theorem convDay_le_six (d : Nat) (hd : d ≤ 7) : convDay d ≤ 6 := by
  simp only [convDay]
  split <;> omega

/-- Evaluate `convertDowToken` on a rendered numeric range token with both
endpoints in the conversion table. -/
theorem convertDowToken_render_rng (a b : Nat) (step : Option Nat)
    (ha : a ≤ 7) (hb : b ≤ 7) :
    convertDowToken (renderTok (.rng a b step)) =
      (if convDay a ≤ convDay b then
        natToChars (convDay a) ++ '-' :: natToChars (convDay b) ++
          stepSuffix step
      else if ((rangeStep a b (step.getD 1)).filterMap
          (fun d => (crontabDowToAp d).map natToChars)).isEmpty then
        renderTok (.rng a b step)
      else joinComma ((rangeStep a b (step.getD 1)).filterMap
          (fun d => (crontabDowToAp d).map natToChars))) := by
  have hna : natToChars a = [digitChar a] := by
    rw [natToChars_eq, if_pos (by omega)]
  have hd : isDigitC (digitChar a) = true := isDigitC_digitChar a (by omega)
  have hrt : renderTok (.rng a b step) =
      digitChar a :: ('-' :: natToChars b ++ stepSuffix step) := by
    simp [renderTok, hna]
  have ht2 : (digitChar a :: ('-' :: natToChars b ++ stepSuffix step)).take 2 =
      [digitChar a, '-'] := rfl
  rw [convertDowToken, hrt]
  rw [named_contains_digit_head _ _ hd]
  rw [if_neg (by simp)]
  rw [if_neg (by simp)]
  rw [if_neg (by rw [ht2]; simp)]
  rw [← hrt, show renderTok (.rng a b step) =
    natToChars a ++ '-' :: natToChars b ++ stepSuffix step from rfl,
    parseRange_render]
  simp only [crontabDowToAp_convDay a ha, crontabDowToAp_convDay b hb]

/-- Weekdays matched by a single rendered-number field. -/
theorem apFieldDays_single_num (w : Nat) (hw : w ≤ 6) :
    apFieldDays (natToChars w) = [w] := by
  interval_cases w <;> decide

theorem filterMap_convDay (l : List Nat) (h : ∀ d ∈ l, d ≤ 7) :
    l.filterMap crontabDowToAp = l.map convDay := by
  induction l with
  | nil => rfl
  | cons d ds ih =>
    have hd := h d (by simp)
    simp only [List.filterMap_cons, List.map_cons, crontabDowToAp_convDay d hd]
    rw [ih fun x hx => h x (by simp [hx])]

theorem filterMap_convDay_chars (l : List Nat) (h : ∀ d ∈ l, d ≤ 7) :
    l.filterMap (fun d => (crontabDowToAp d).map natToChars) =
      l.map (fun d => natToChars (convDay d)) := by
  induction l with
  | nil => rfl
  | cons d ds ih =>
    have hd := h d (by simp)
    simp [crontabDowToAp_convDay d hd, ih fun x hx => h x (by simp [hx])]

theorem indexOf_named_digit_head (c : Char) (l : List Char)
    (hc : isDigitC c = true) :
    namedDays.indexOf? ((c :: l).map Char.toLower) = none := by
  rw [List.indexOf?_eq_none_iff]
  intro x hx hbeq
  have hxeq : x = (c :: l).map Char.toLower := by
    simpa using hbeq
  exact digit_head_not_named c l hc (hxeq ▸ hx)

theorem no_comma_render_range (lo hi : Nat) (step : Option Nat) :
    ',' ∉ natToChars lo ++ '-' :: natToChars hi ++ stepSuffix step := by
  intro hmem
  have hcd : isDigitC ',' = false := by decide
  cases step with
  | none =>
    simp only [stepSuffix, List.append_nil, List.mem_append,
      List.mem_cons] at hmem
    rcases hmem with h | h | h
    · exact not_mem_of_all_digits ',' _ (natToChars_all_digits lo) hcd h
    · exact absurd h (by decide)
    · exact not_mem_of_all_digits ',' _ (natToChars_all_digits hi) hcd h
  | some s =>
    simp only [stepSuffix, List.mem_append, List.mem_cons] at hmem
    rcases hmem with (h | h | h) | h | h
    · exact not_mem_of_all_digits ',' _ (natToChars_all_digits lo) hcd h
    · exact absurd h (by decide)
    · exact not_mem_of_all_digits ',' _ (natToChars_all_digits hi) hcd h
    · exact absurd h (by decide)
    · exact not_mem_of_all_digits ',' _ (natToChars_all_digits s) hcd h

/-- Weekdays matched by a rendered APScheduler range token. -/
theorem apFieldDays_render_range (lo hi : Nat) (hlo : lo < 10)
    (step : Option Nat) :
    apFieldDays (natToChars lo ++ '-' :: natToChars hi ++ stepSuffix step) =
      rangeStep lo hi (step.getD 1) := by
  have hna : natToChars lo = [digitChar lo] := by rw [natToChars_eq, if_pos hlo]
  have hd : isDigitC (digitChar lo) = true := isDigitC_digitChar lo hlo
  have htok : natToChars lo ++ '-' :: natToChars hi ++ stepSuffix step =
      digitChar lo :: ('-' :: natToChars hi ++ stepSuffix step) := by
    simp [hna]
  rw [apFieldDays, splitOnChar_no_sep _ _ (no_comma_render_range lo hi step)]
  simp only [List.flatMap_cons, List.flatMap_nil, List.append_nil]
  rw [htok, apTokenDays, indexOf_named_digit_head _ _ hd]
  rw [if_neg (by simp)]
  rw [if_neg (by
    rw [show (digitChar lo :: ('-' :: natToChars hi ++ stepSuffix step)).take 2 =
      [digitChar lo, '-'] from rfl]
    simp)]
  rw [← htok, parseRange_render]

theorem flatMap_single_convDay (l : List Nat) (h : ∀ d ∈ l, d ≤ 7) :
    l.flatMap (fun d => apFieldDays (natToChars (convDay d))) =
      l.map convDay := by
  induction l with
  | nil => rfl
  | cons d ds ih =>
    have hd := h d (by simp)
    simp only [List.flatMap_cons, List.map_cons]
    rw [apFieldDays_single_num _ (convDay_le_six d hd),
      ih fun x hx => h x (by simp [hx])]
    rfl

theorem map_convDay_pos (l : List Nat) (h : ∀ d ∈ l, 1 ≤ d) :
    l.map convDay = l.map (· - 1) := by
  induction l with
  | nil => rfl
  | cons d ds ih =>
    have hd := h d (by simp)
    simp only [List.map_cons, convDay]
    rw [if_neg (by omega), ih fun x hx => h x (by simp [hx])]

/-- One well-formed numeric range token converts to a token matching
exactly the crontab-convention weekdays. -/
theorem convert_rng_days (a b : Nat) (step : Option Nat)
    (hwf : WfTok (.rng a b step)) :
    apFieldDays (convertDowToken (renderTok (.rng a b step))) =
      crontabTokDays (.rng a b step) := by
  obtain ⟨hab, hb7, hnot, hstep⟩ := hwf
  have hs1 : 1 ≤ step.getD 1 := by
    cases step with
    | none => simp
    | some s => exact hstep s rfl
  have hbounds : ∀ d ∈ rangeStep a b (step.getD 1), d ≤ 7 := fun d hd =>
    le_trans (rangeStep_mem_bounds a b _ d hd).2 hb7
  rw [convertDowToken_render_rng a b step (by omega) hb7]
  by_cases ha0 : a = 0
  · subst ha0
    by_cases hb0 : b = 0
    · subst hb0
      rw [if_pos (le_refl _)]
      rw [show convDay 0 = 6 from rfl]
      rw [apFieldDays_render_range 6 6 (by omega) step]
      show rangeStep 6 6 _ =
        (rangeStep 0 0 (step.getD 1)).filterMap crontabDowToAp
      rw [filterMap_convDay _ (fun d hd => le_trans
        (rangeStep_mem_bounds 0 0 _ d hd).2 (by omega))]
      rw [rangeStep_eq 6, if_neg (by omega), if_neg (by omega)]
      rw [rangeStep_eq (6 + step.getD 1), if_neg (by omega), if_pos (by omega)]
      rw [rangeStep_eq 0, if_neg (by omega), if_neg (by omega)]
      rw [rangeStep_eq (0 + step.getD 1), if_neg (by omega), if_pos (by omega)]
      simp [convDay]
    · have hb6 : b ≤ 6 := by omega
      rw [if_neg (by
        rw [show convDay 0 = 6 from rfl, convDay, if_neg hb0]
        omega)]
      rw [filterMap_convDay_chars _ hbounds]
      rw [if_neg (by
        rw [rangeStep_zero_cons b (step.getD 1) hs1]
        simp)]
      rw [apFieldDays_joinComma, List.flatMap_map]
      rw [flatMap_single_convDay _ hbounds]
      show _ = (rangeStep 0 b (step.getD 1)).filterMap crontabDowToAp
      rw [filterMap_convDay _ hbounds]
  · have ha1 : 1 ≤ a := by omega
    have hca : convDay a = a - 1 := by rw [convDay, if_neg ha0]
    have hcb : convDay b = b - 1 := by rw [convDay, if_neg (by omega)]
    rw [hca, hcb, if_pos (by omega)]
    rw [apFieldDays_render_range (a - 1) (b - 1) (by omega) step]
    show _ = (rangeStep a b (step.getD 1)).filterMap crontabDowToAp
    rw [filterMap_convDay _ hbounds]
    rw [map_convDay_pos _ (fun d hd =>
      le_trans ha1 (rangeStep_mem_bounds a b _ d hd).1)]
    rw [rangeStep_map_sub_one a b _ ha1 (by omega)]

/-- One well-formed bare-number token converts to a token matching exactly
the crontab-convention weekday. -/
theorem convert_num_days (n : Nat) (hn : n ≤ 7) :
    apFieldDays (convertDowToken (renderTok (.num n))) =
      crontabTokDays (.num n) := by
  interval_cases n <;> decide

theorem convert_tok_days (t : CronDowTok) (hwf : WfTok t) :
    apFieldDays (convertDowToken (renderTok t)) = crontabTokDays t := by
  cases t with
  | num n => exact convert_num_days n hwf
  | rng a b step => exact convert_rng_days a b step hwf

/-! ### Lifting token conversion to whole comma-separated fields -/

theorem renderTok_chars (t : CronDowTok) :
    ∀ c ∈ renderTok t, isDigitC c = true ∨ c = '-' ∨ c = '/' := by
  cases t with
  | num n => exact fun c hc => Or.inl (natToChars_all_digits n c hc)
  | rng a b step =>
    intro c hc
    cases step with
    | none =>
      simp only [renderTok, stepSuffix, List.append_nil, List.mem_append,
        List.mem_cons] at hc
      rcases hc with h | h | h
      · exact Or.inl (natToChars_all_digits a c h)
      · exact Or.inr (Or.inl h)
      · exact Or.inl (natToChars_all_digits b c h)
    | some s =>
      simp only [renderTok, stepSuffix, List.mem_append, List.mem_cons] at hc
      rcases hc with (h | h | h) | h | h
      · exact Or.inl (natToChars_all_digits a c h)
      · exact Or.inr (Or.inl h)
      · exact Or.inl (natToChars_all_digits b c h)
      · exact Or.inr (Or.inr h)
      · exact Or.inl (natToChars_all_digits s c h)

theorem renderTok_no_comma (t : CronDowTok) : ',' ∉ renderTok t := by
  intro hmem
  rcases renderTok_chars t ',' hmem with h | h | h <;> simp [isDigitC] at h

theorem renderTok_no_ws (t : CronDowTok) :
    ∀ c ∈ renderTok t, pyIsSpace c = false := by
  intro c hc
  rcases renderTok_chars t c hc with h | h | h
  · by_contra hws
    simp only [Bool.not_eq_false, pyIsSpace, Bool.or_eq_true,
      decide_eq_true_eq] at hws
    rcases hws with ((((rfl | rfl) | rfl) | rfl) | rfl) | rfl <;>
      simp [isDigitC] at h
  · subst h; decide
  · subst h; decide

theorem dropWhile_of_head_false (p : Char → Bool) (cs : List Char)
    (h : ∀ c ∈ cs, p c = false) : cs.dropWhile p = cs := by
  cases cs with
  | nil => rfl
  | cons c cs => simp [List.dropWhile_cons, h c (by simp)]

theorem trimChars_id (cs : List Char)
    (h : ∀ c ∈ cs, pyIsSpace c = false) : trimChars cs = cs := by
  rw [trimChars, dropWhile_of_head_false _ _ h,
    dropWhile_of_head_false _ _ (fun c hc => h c (List.mem_reverse.mp hc)),
    List.reverse_reverse]

theorem splitOnChar_joinComma (ps : List (List Char)) (hne : ps ≠ [])
    (h : ∀ p ∈ ps, ',' ∉ p) : splitOnChar ',' (joinComma ps) = ps := by
  induction ps with
  | nil => exact absurd rfl hne
  | cons p ps ih =>
    cases ps with
    | nil =>
      show splitOnChar ',' (joinComma [p]) = [p]
      exact splitOnChar_no_sep ',' p (h p (by simp))
    | cons q qs =>
      show splitOnChar ',' (p ++ ',' :: joinComma (q :: qs)) = _
      rw [splitOnChar_append_sep, splitOnChar_no_sep ',' p (h p (by simp)),
        ih (by simp) fun x hx => h x (by simp [hx])]
      rfl

theorem flatMap_convert_toks (ts : List CronDowTok)
    (hwf : ∀ t ∈ ts, WfTok t) :
    ts.flatMap (fun t => apFieldDays (convertDowToken (renderTok t))) =
      ts.flatMap crontabTokDays := by
  induction ts with
  | nil => rfl
  | cons t ts ih =>
    simp only [List.flatMap_cons]
    rw [convert_tok_days t (hwf t (by simp)),
      ih fun x hx => hwf x (by simp [hx])]

/-- Converting a rendered comma list of well-formed numeric tokens yields a
field matching exactly the crontab-convention weekdays. -/
theorem convertDowField_renderToks (ts : List CronDowTok) (hne : ts ≠ [])
    (hwf : ∀ t ∈ ts, WfTok t) :
    apFieldDays (convertDowField (renderToks ts)) =
      ts.flatMap crontabTokDays := by
  rw [convertDowField, renderToks,
    splitOnChar_joinComma (ts.map renderTok) (by simpa using hne)
      (by intro p hp
          obtain ⟨t, _, rfl⟩ := List.mem_map.mp hp
          exact renderTok_no_comma t)]
  have htrim : (ts.map renderTok).map (fun p => convertDowToken (trimChars p)) =
      ts.map (fun t => convertDowToken (renderTok t)) := by
    rw [List.map_map]
    refine List.map_congr_left fun t _ => ?_
    show convertDowToken (trimChars (renderTok t)) = _
    rw [trimChars_id _ (renderTok_no_ws t)]
  rw [htrim, apFieldDays_joinComma, List.flatMap_map]
  exact flatMap_convert_toks ts hwf

/-- A wrapping converted range is emitted as an enumerated comma list. -/
theorem joinComma_chars (ps : List (List Char))
    (h : ∀ p ∈ ps, ∀ c ∈ p, isDigitC c = true) :
    ∀ c ∈ joinComma ps, isDigitC c = true ∨ c = ',' := by
  induction ps with
  | nil => simp [joinComma]
  | cons p ps ih =>
    cases ps with
    | nil =>
      intro c hc
      exact Or.inl (h p (by simp) c hc)
    | cons q qs =>
      intro c hc
      rcases List.mem_append.mp hc with hcp | hctail
      · exact Or.inl (h p (by simp) c hcp)
      · rcases List.mem_cons.mp hctail with rfl | hcj
        · exact Or.inr rfl
        · exact ih (fun x hx => h x (by simp [hx])) c hcj

theorem convertDowToken_named (token : List Char)
    (h : token.map Char.toLower ∈ namedDays) : convertDowToken token = token := by
  have hcont : namedDays.contains (token.map Char.toLower) = true := by
    simpa using h
  rw [convertDowToken, if_pos hcont]

theorem convertDowToken_wrap_no_dash (b : Nat) (step : Option Nat)
    (hb1 : 1 ≤ b) (hb6 : b ≤ 6) (hstep : ∀ s, step = some s → 1 ≤ s) :
    '-' ∉ convertDowToken (renderTok (.rng 0 b step)) := by
  have hs1 : 1 ≤ step.getD 1 := by
    cases step with
    | none => simp
    | some s => exact hstep s rfl
  have hbounds : ∀ d ∈ rangeStep 0 b (step.getD 1), d ≤ 7 := fun d hd =>
    le_trans (rangeStep_mem_bounds 0 b _ d hd).2 (by omega)
  rw [convertDowToken_render_rng 0 b step (by omega) (by omega)]
  rw [if_neg (by
    rw [show convDay 0 = 6 from rfl, convDay, if_neg (by omega)]
    omega)]
  rw [filterMap_convDay_chars _ hbounds]
  rw [if_neg (by
    rw [rangeStep_zero_cons b (step.getD 1) hs1]
    simp)]
  intro hmem
  have hch := joinComma_chars ((rangeStep 0 b (step.getD 1)).map
    (fun d => natToChars (convDay d)))
    (by intro p hp c hc
        obtain ⟨d, _, rfl⟩ := List.mem_map.mp hp
        exact natToChars_all_digits (convDay d) c hc) '-' hmem
  rcases hch with h | h <;> exact absurd h (by decide)

theorem parseCrontabE_example :
    parseCrontabE ("0 10 * * 3".data) =
      .ok ⟨"0".data, "10".data, "*".data, "*".data, "2".data⟩ := rfl

theorem apNextFireWeekday_example (start : Nat) (h : start < 7) :
    apNextFireWeekday ("2".data) start = some 2 := by
  interval_cases start <;> rfl

/-- C1 (amended): `parse_crontab` converts exactly the day-of-week field of
a 5-field crontab expression; for a day-of-week field that is a comma list
of bare numbers and numeric ranges with optional step (endpoints in 0..7,
ascending, positive step, excluding the degenerate full range `0-7`), the
trigger's firing weekdays are exactly the crontab-convention (0=Sunday,
7=Sunday alias) weekdays converted to the scheduling library's Monday=0
convention; a range that wraps after conversion is emitted as an enumerated
day list containing no range dash; named day tokens pass through unchanged;
and the example cron `0 10 * * 3` computes its next fire on a Wednesday
(Python weekday 2) from any starting weekday. -/
theorem C1_dow_conversion
    (ts : List CronDowTok) (hne : ts ≠ []) (hwf : ∀ t ∈ ts, WfTok t)
    (expr : List Char) (m h d mo dw : List Char)
    (hsplit : splitWsPy (trimChars expr) = [m, h, d, mo, dw])
    (start : Nat) (hstart : start < 7) :
    parseCrontabE expr = .ok ⟨m, h, d, mo, convertDowField dw⟩
    ∧ apFieldDays (convertDowField (renderToks ts)) = ts.flatMap crontabTokDays
    ∧ (∀ token, token.map Char.toLower ∈ namedDays →
        convertDowToken token = token)
    ∧ (∀ b step, 1 ≤ b → b ≤ 6 → (∀ s, step = some s → 1 ≤ s) →
        '-' ∉ convertDowToken (renderTok (.rng 0 b step)))
    ∧ (∀ f, parseCrontabE ("0 10 * * 3".data) = .ok f →
        apNextFireWeekday f.dayOfWeek start = some 2) := by
  refine ⟨?_, convertDowField_renderToks ts hne hwf,
    fun token hn => convertDowToken_named token hn,
    fun b step hb1 hb6 hst => convertDowToken_wrap_no_dash b step hb1 hb6 hst,
    ?_⟩
  · rw [parseCrontabE, hsplit]
  · intro f hf
    rw [parseCrontabE_example] at hf
    injection hf with hf
    rw [← hf]
    exact apNextFireWeekday_example start hstart

/-- C1 counterexample: the claim as stated also covers the numeric range
`0-7` (all seven days in crontab convention, since 0 and 7 both alias
Sunday), but the conversion collapses it to the single APScheduler day
`6-6`, i.e. Sunday only: crontab day 1 (Monday, Python weekday 0) is in the
crontab-convention day set of `0-7` yet not matched by the converted
trigger. -/
theorem C1_counterexample :
    convertDowField ("0-7".data) = "6-6".data
    ∧ 0 ∈ crontabTokDays (.rng 0 7 none)
    ∧ renderTok (.rng 0 7 none) = "0-7".data
    ∧ 0 ∉ apFieldDays (convertDowField ("0-7".data)) := by
  refine ⟨rfl, by decide, rfl, by decide⟩

/-- Witness for `C1_dow_conversion` at the tokens `3` and `1-5/2`, the
expression `0 10 * * 3`, and starting weekday 0. -/
theorem C1_dow_conversion_witness :
    (([CronDowTok.num 3, .rng 1 5 (some 2)] ≠ []) ∧
      (∀ t ∈ [CronDowTok.num 3, .rng 1 5 (some 2)], WfTok t) ∧
      splitWsPy (trimChars ("0 10 * * 3".data)) =
        ["0".data, "10".data, "*".data, "*".data, "3".data] ∧ 0 < 7) ∧
    (parseCrontabE ("0 10 * * 3".data) =
        .ok ⟨"0".data, "10".data, "*".data, "*".data,
          convertDowField ("3".data)⟩
      ∧ apFieldDays (convertDowField
          (renderToks [CronDowTok.num 3, .rng 1 5 (some 2)])) =
        [CronDowTok.num 3, .rng 1 5 (some 2)].flatMap crontabTokDays
      ∧ (∀ token, token.map Char.toLower ∈ namedDays →
          convertDowToken token = token)
      ∧ (∀ b step, 1 ≤ b → b ≤ 6 → (∀ s, step = some s → 1 ≤ s) →
          '-' ∉ convertDowToken (renderTok (.rng 0 b step)))
      ∧ (∀ f, parseCrontabE ("0 10 * * 3".data) = .ok f →
          apNextFireWeekday f.dayOfWeek 0 = some 2)) :=
  ⟨⟨by decide, by decide, rfl, by decide⟩,
    C1_dow_conversion [CronDowTok.num 3, .rng 1 5 (some 2)] (by decide)
      (by decide) ("0 10 * * 3".data) ("0".data) ("10".data) ("*".data)
      ("*".data) ("3".data) rfl 0 (by decide)⟩

/-! ## Scheduler: misfire detection on startup (`_detect_misfire`, `start`)

Timestamps are integer seconds; the trigger is a function `next` giving the
next expected fire time strictly after a given instant (the shape in which
`_detect_misfire` consumes `trigger.get_next_fire_time`). -/

/-- Grace window for replaying missed fires, `MISFIRE_GRACE_SECONDS`
(3 hours, in seconds). -/
def misfireGraceSeconds : Int := 3 * 60 * 60

/-- The bounded walk of `_detect_misfire`: from each expected fire time
that is not after `now`, remember it as the latest missed fire when it is
within the grace window, and advance; stop at a `None` fire time, at a
future fire time, or after 1000 iterations. -/
def misfireWalk (next : Int → Option Int) (now : Int) :
    Nat → Option Int → Option Int → Option Int
  | 0, _, latest => latest
  | fuel + 1, expected?, latest =>
    match expected? with
    | none => latest
    | some e =>
      if e > now then latest
      else
        misfireWalk next now fuel (next e)
          (if now - e ≤ misfireGraceSeconds then some e else latest)

/-- `_detect_misfire`: no recovery without a recorded `last_fired_at`;
otherwise walk forward from it through expected fire times. -/
def detectMisfire (next : Int → Option Int) (lastFiredRaw : Option Int)
    (now : Int) : Option Int :=
  match lastFiredRaw with
  | none => none
  | some lastFired => misfireWalk next now 1000 (next lastFired) none

/-- The immediate fires `JobScheduler.start` performs for one job: one call
of `_fire_event` when `_detect_misfire` reported a missed time, none
otherwise. -/
def startMisfireFires (next : Int → Option Int) (lastFired : Option Int)
    (now : Int) : List Int :=
  (detectMisfire next lastFired now).toList

/-- Iterate `next` from an optional starting point: the sequence of
expected fire times the walk visits. -/
def orbitFrom (next : Int → Option Int) : Option Int → Nat → Option Int
  | o, 0 => o
  | none, _ + 1 => none
  | some e, k + 1 => orbitFrom next (next e) k

theorem orbitFrom_zero (next : Int → Option Int) (o : Option Int) :
    orbitFrom next o 0 = o := by cases o <;> rfl

theorem orbitFrom_none (next : Int → Option Int) (k : Nat) :
    orbitFrom next none k = none := by cases k <;> rfl

theorem orbitFrom_succ_some (next : Int → Option Int) (e : Int) (k : Nat) :
    orbitFrom next (some e) (k + 1) = orbitFrom next (next e) k := rfl

theorem orbitFrom_mono (next : Int → Option Int)
    (hmono : ∀ t e, next t = some e → t < e) :
    ∀ (k : Nat) (e u : Int), orbitFrom next (next e) k = some u → e < u := by
  intro k
  induction k with
  | zero =>
    intro e u h
    rw [orbitFrom_zero] at h
    exact hmono e u h
  | succ k ih =>
    intro e u h
    cases hne : next e with
    | none => rw [hne, orbitFrom_none] at h; exact absurd h (by simp)
    | some e1 =>
      rw [hne, orbitFrom_succ_some] at h
      exact lt_trans (hmono e e1 hne) (ih e1 u h)

theorem misfireWalk_sound (next : Int → Option Int) (now : Int)
    (P : Int → Prop) (hP : ∀ e e', P e → next e = some e' → P e') :
    ∀ (fuel : Nat) (exp? latest : Option Int),
      (∀ e, exp? = some e → P e) →
      (∀ t, latest = some t → P t ∧ t ≤ now ∧ now - t ≤ misfireGraceSeconds) →
      ∀ t, misfireWalk next now fuel exp? latest = some t →
        P t ∧ t ≤ now ∧ now - t ≤ misfireGraceSeconds := by
  intro fuel
  induction fuel with
  | zero => intro exp? latest _ hlat t ht; exact hlat t ht
  | succ fuel ih =>
    intro exp? latest hexp hlat t ht
    cases exp? with
    | none => exact hlat t ht
    | some e =>
      rw [misfireWalk] at ht
      by_cases hnow : e > now
      · rw [if_pos hnow] at ht
        exact hlat t ht
      · rw [if_neg hnow] at ht
        refine ih (next e) _ (fun e' he' => hP e e' (hexp e rfl) he') ?_ t ht
        intro u hu
        by_cases hgr : now - e ≤ misfireGraceSeconds
        · rw [if_pos hgr] at hu
          cases hu
          exact ⟨hexp e rfl, by omega, hgr⟩
        · rw [if_neg hgr] at hu
          exact hlat u hu

theorem misfireWalk_ge (next : Int → Option Int) (now : Int)
    (hmono : ∀ t e, next t = some e → t < e) :
    ∀ (fuel : Nat) (exp? latest : Option Int) (u : Int),
      latest = some u → (∀ e, exp? = some e → u < e) →
      ∃ t, misfireWalk next now fuel exp? latest = some t ∧ u ≤ t := by
  intro fuel
  induction fuel with
  | zero =>
    intro exp? latest u hu _
    exact ⟨u, by rw [misfireWalk, hu], le_refl u⟩
  | succ fuel ih =>
    intro exp? latest u hu hlt
    cases exp? with
    | none => exact ⟨u, by rw [misfireWalk, hu], le_refl u⟩
    | some e =>
      by_cases hnow : e > now
      · exact ⟨u, by rw [misfireWalk, if_pos hnow, hu], le_refl u⟩
      · have hue : u < e := hlt e rfl
        by_cases hgr : now - e ≤ misfireGraceSeconds
        · obtain ⟨t, ht, het⟩ := ih (next e) (some e) e rfl
            (fun e' he' => hmono e e' he')
          refine ⟨t, ?_, by omega⟩
          rw [misfireWalk, if_neg hnow, if_pos hgr]
          exact ht
        · obtain ⟨t, ht, hut⟩ := ih (next e) latest u hu
            (fun e' he' => lt_trans hue (hmono e e' he'))
          refine ⟨t, ?_, hut⟩
          rw [misfireWalk, if_neg hnow, if_neg hgr]
          exact ht

theorem orbitFrom_extend (next : Int → Option Int) :
    ∀ (k : Nat) (o : Option Int) (e e' : Int),
      orbitFrom next o k = some e → next e = some e' →
      orbitFrom next o (k + 1) = some e' := by
  intro k
  induction k with
  | zero =>
    intro o e e' h hn
    rw [orbitFrom_zero] at h
    subst h
    rw [orbitFrom_succ_some, hn, orbitFrom_zero]
  | succ k ih =>
    intro o e e' h hn
    cases o with
    | none => rw [orbitFrom_none] at h; exact absurd h (by simp)
    | some x =>
      rw [orbitFrom_succ_some] at h
      rw [orbitFrom_succ_some]
      exact ih (next x) e e' h hn

theorem misfireWalk_complete (next : Int → Option Int) (now : Int)
    (hmono : ∀ t e, next t = some e → t < e) :
    ∀ (k fuel : Nat) (exp? latest : Option Int) (u : Int), k < fuel →
      orbitFrom next exp? k = some u → u ≤ now →
      now - u ≤ misfireGraceSeconds →
      ∃ t, misfireWalk next now fuel exp? latest = some t ∧ u ≤ t := by
  intro k
  induction k with
  | zero =>
    intro fuel exp? latest u hk horb hle hgr
    cases fuel with
    | zero => omega
    | succ fuel =>
      rw [orbitFrom_zero] at horb
      subst horb
      rw [misfireWalk, if_neg (by omega), if_pos hgr]
      exact misfireWalk_ge next now hmono fuel (next u) (some u) u rfl
        (fun e' he' => hmono u e' he')
  | succ k ih =>
    intro fuel exp? latest u hk horb hle hgr
    cases exp? with
    | none => rw [orbitFrom_none] at horb; exact absurd horb (by simp)
    | some e =>
      rw [orbitFrom_succ_some] at horb
      have heu : e < u := orbitFrom_mono next hmono k e u horb
      cases fuel with
      | zero => omega
      | succ fuel =>
        rw [misfireWalk, if_neg (by omega)]
        exact ih fuel (next e) _ u (by omega) horb hle hgr

/-- C2 (amended): on scheduler start, a job with null `last_fired_at`
receives no misfire recovery; for a job with a recorded `last_fired_at`,
the scheduler fires immediately, exactly once, the most recent expected
fire time that is in the past and at most the 3-hour grace window old —
not every such time — and any reported time is an expected fire from the
walk, in the past, and within the grace window; expected fires older than
the grace window, or superseded by a later in-grace missed fire, are
silently skipped and never fired. -/
theorem C2_misfire_recovery (next : Int → Option Int)
    (hmono : ∀ t e, next t = some e → t < e) (lf now : Int) :
    detectMisfire next none now = none
    ∧ (∀ t, detectMisfire next (some lf) now = some t →
        (∃ k, orbitFrom next (next lf) k = some t) ∧ t ≤ now ∧
          now - t ≤ misfireGraceSeconds)
    ∧ (∀ k u, k < 1000 → orbitFrom next (next lf) k = some u → u ≤ now →
        now - u ≤ misfireGraceSeconds →
        ∃ t, detectMisfire next (some lf) now = some t ∧ u ≤ t)
    ∧ (startMisfireFires next (some lf) now).length ≤ 1
    ∧ (∀ t, detectMisfire next (some lf) now = some t →
        startMisfireFires next (some lf) now = [t]) := by
  refine ⟨rfl, ?_, ?_, ?_, ?_⟩
  · intro t ht
    have hs := misfireWalk_sound next now
      (fun t => ∃ k, orbitFrom next (next lf) k = some t)
      (by rintro e e' ⟨k, hk⟩ hnexte
          exact ⟨k + 1, orbitFrom_extend next k (next lf) e e' hk hnexte⟩)
      1000 (next lf) none (fun e he => ⟨0, by rw [orbitFrom_zero]; exact he⟩)
      (by simp) t ht
    exact hs
  · intro k u hk horb hle hgr
    exact misfireWalk_complete next now hmono k 1000 (next lf) none u hk
      horb hle hgr
  · unfold startMisfireFires
    cases detectMisfire next (some lf) now <;> simp
  · intro t ht
    unfold startMisfireFires
    rw [ht]
    rfl

/-- An hourly trigger: next expected fire is one hour later. -/
def hourlyTrigger : Int → Option Int := fun t => some (t + 3600)

/-- C2 counterexample: with an hourly job whose `last_fired_at` is 0 and
`now` 10800 (three hours later), the expected fires 3600, 7200 and 10800
are all in the past and within the 3-hour grace window, yet startup fires
only once, at 10800: the expected fire 3600 is never fired, refuting
"every expected fire time within the grace window is fired". -/
theorem C2_counterexample :
    startMisfireFires hourlyTrigger (some 0) 10800 = [10800]
    ∧ orbitFrom hourlyTrigger (hourlyTrigger 0) 0 = some 3600
    ∧ (3600 : Int) ≤ 10800
    ∧ (10800 - 3600 : Int) ≤ misfireGraceSeconds
    ∧ 3600 ∉ startMisfireFires hourlyTrigger (some 0) 10800 :=
  ⟨rfl, rfl, by decide, by decide, by decide⟩

/-- Witness for `C2_misfire_recovery` at the hourly trigger. -/
theorem C2_misfire_recovery_witness :
    (∀ t e, hourlyTrigger t = some e → t < e) ∧
    (detectMisfire hourlyTrigger none 10800 = none
    ∧ (∀ t, detectMisfire hourlyTrigger (some 0) 10800 = some t →
        (∃ k, orbitFrom hourlyTrigger (hourlyTrigger 0) k = some t) ∧
          t ≤ 10800 ∧ 10800 - t ≤ misfireGraceSeconds)
    ∧ (∀ k u, k < 1000 →
        orbitFrom hourlyTrigger (hourlyTrigger 0) k = some u → u ≤ 10800 →
        10800 - u ≤ misfireGraceSeconds →
        ∃ t, detectMisfire hourlyTrigger (some 0) 10800 = some t ∧ u ≤ t)
    ∧ (startMisfireFires hourlyTrigger (some 0) 10800).length ≤ 1
    ∧ (∀ t, detectMisfire hourlyTrigger (some 0) 10800 = some t →
        startMisfireFires hourlyTrigger (some 0) 10800 = [t])) :=
  have hmono : ∀ t e, hourlyTrigger t = some e → t < e := fun t e h => by
    simp only [hourlyTrigger, Option.some.injEq] at h
    omega
  ⟨hmono, C2_misfire_recovery hourlyTrigger hmono 0 10800⟩

/-! ## Scheduler: `_fire_event` records `last_fired_at` before publishing -/

/-- A persisted `scheduled_jobs` row, as touched by `_update_last_fired`. -/
structure SchedJobRow where
  job_id : List Char
  job_name : List Char
  cron_expression : List Char
  is_active : Bool
  last_fired_at : Option Int
  deriving DecidableEq, Repr

/-- Observable steps of `_fire_event`, in execution order: the awaited
database update of `last_fired_at` (with its success flag — a failing
update is logged and swallowed), then the event-bus publish of the
`ScheduledEvent`, which is what triggers any downstream agent execution. -/
inductive FireStep where
  | recordLastFired (jobName : List Char) (ok : Bool)
  | publishScheduled (jobName : List Char)
  deriving DecidableEq, Repr

/-- `_update_last_fired`: set `last_fired_at = now` on every active row
with the matching job name. -/
def updateLastFired (rows : List SchedJobRow) (jobName : List Char)
    (now : Int) : List SchedJobRow :=
  rows.map fun r =>
    if r.job_name = jobName ∧ r.is_active = true then
      { r with last_fired_at := some now }
    else r

/-- `_fire_event`: await the `last_fired_at` update (its failure is caught
and logged), then publish the `ScheduledEvent`. Returns the resulting rows
and the ordered step trace. -/
def fireEvent (rows : List SchedJobRow) (jobName : List Char) (now : Int)
    (dbOk : Bool) : List SchedJobRow × List FireStep :=
  ((if dbOk then updateLastFired rows jobName now else rows),
    [.recordLastFired jobName dbOk, .publishScheduled jobName])

/-- C3: whenever a job fires, the `last_fired_at = now` database write is
awaited strictly before the `ScheduledEvent` publish (and hence before any
downstream agent execution, which the publish triggers): the record step
is the unique first step and the publish the unique last one, and when the
write succeeds every matching active row carries `last_fired_at = now` at
publish time. -/
theorem C3_fire_order (rows : List SchedJobRow) (jobName : List Char)
    (now : Int) (dbOk : Bool) :
    (fireEvent rows jobName now dbOk).2 =
      [.recordLastFired jobName dbOk, .publishScheduled jobName]
    ∧ (∀ i j, (fireEvent rows jobName now dbOk).2.get? i =
          some (.recordLastFired jobName dbOk) →
        (fireEvent rows jobName now dbOk).2.get? j =
          some (.publishScheduled jobName) → i < j)
    ∧ (dbOk = true → ∀ r ∈ (fireEvent rows jobName now dbOk).1,
        r.job_name = jobName → r.is_active = true →
        r.last_fired_at = some now) := by
  refine ⟨rfl, ?_, ?_⟩
  · intro i j hi hj
    have hi0 : i = 0 := by
      match i with
      | 0 => rfl
      | 1 => simp [fireEvent] at hi
      | n + 2 => simp [fireEvent] at hi
    have hj1 : j = 1 := by
      match j with
      | 0 => simp [fireEvent] at hj
      | 1 => rfl
      | n + 2 => simp [fireEvent] at hj
    omega
  · intro hdb r hr hname hact
    subst hdb
    simp only [fireEvent, if_pos, updateLastFired, List.mem_map] at hr
    obtain ⟨r0, _, hr0⟩ := hr
    by_cases hc : r0.job_name = jobName ∧ r0.is_active = true
    · rw [if_pos hc] at hr0
      subst hr0
      rfl
    · rw [if_neg hc] at hr0
      subst hr0
      exact absurd ⟨hname, hact⟩ hc

/-! ## Scheduler: `add_job` validates the cron string before any state
change (`JobScheduler.add_job`) -/

/-- A persisted job row as written by `_save_job` (the raw crontab string
is stored, not the converted one; `is_active` starts 1). -/
structure JobRowPersist where
  job_id : List Char
  job_name : List Char
  cron_expression : List Char
  prompt : List Char
  is_active : Bool
  deriving DecidableEq, Repr

/-- The scheduler state `add_job` touches: APScheduler timer registrations
and the persisted job table. -/
structure SchedState where
  timers : List (List Char × CronFields)
  rows : List JobRowPersist
  deriving DecidableEq, Repr

/-- `JobScheduler.add_job`: parse the crontab first (raising on failure,
before anything is registered or persisted), then register the trigger
with the timer, persist the row with the raw crontab string, and return
the job id. `jobId` stands for the id APScheduler generates at
registration. -/
def addJob (st : SchedState) (jobId jobName cron prompt : List Char) :
    Except (List Char) (List Char) × SchedState :=
  match parseCrontabE cron with
  | .error e => (.error e, st)
  | .ok trig =>
    (.ok jobId,
      { timers := st.timers ++ [(jobId, trig)],
        rows := st.rows ++ [⟨jobId, jobName, cron, prompt, true⟩] })

theorem parseCrontabE_error_iff (expr : List Char) :
    (∃ e, parseCrontabE expr = .error e) ↔
      (splitWsPy (trimChars expr)).length ≠ 5 := by
  rcases h : splitWsPy (trimChars expr) with _ | ⟨a, _ | ⟨b, _ | ⟨c,
    _ | ⟨d, _ | ⟨e, _ | ⟨f, rest⟩⟩⟩⟩⟩⟩ <;>
    simp [parseCrontabE, h]

/-- C9: `add_job` with a malformed cron expression (wrong field count)
fails synchronously and leaves the scheduler state unchanged — no timer
registered, no row persisted; with a valid expression it registers exactly
one trigger, persists exactly one row storing the raw crontab string, and
returns the job id. -/
theorem C9_add_job_validation (st : SchedState)
    (jobId jobName cron prompt : List Char) :
    (∀ e, parseCrontabE cron = .error e →
      addJob st jobId jobName cron prompt = (.error e, st))
    ∧ ((splitWsPy (trimChars cron)).length ≠ 5 →
      ∃ e, addJob st jobId jobName cron prompt = (.error e, st))
    ∧ (∀ trig, parseCrontabE cron = .ok trig →
      addJob st jobId jobName cron prompt =
        (.ok jobId,
          ⟨st.timers ++ [(jobId, trig)],
            st.rows ++ [⟨jobId, jobName, cron, prompt, true⟩]⟩)) := by
  refine ⟨?_, ?_, ?_⟩
  · intro e he
    rw [addJob, he]
  · intro hlen
    obtain ⟨e, he⟩ := (parseCrontabE_error_iff cron).mpr hlen
    exact ⟨e, by rw [addJob, he]⟩
  · intro trig htrig
    rw [addJob, htrig]

/-- Witness for `C9_add_job_validation` at a malformed (4-field) and the
parsed form of a valid expression. -/
theorem C9_add_job_validation_witness :
    ((splitWsPy (trimChars ("0 10 * *".data))).length ≠ 5 →
      ∃ e, addJob ⟨[], []⟩ ("j1".data) ("job".data) ("0 10 * *".data)
        ("p".data) = (.error e, ⟨[], []⟩)) ∧
    (splitWsPy (trimChars ("0 10 * *".data))).length ≠ 5 ∧
    (∃ e, addJob ⟨[], []⟩ ("j1".data) ("job".data) ("0 10 * *".data)
      ("p".data) = (.error e, ⟨[], []⟩)) :=
  have hth := C9_add_job_validation ⟨[], []⟩ ("j1".data) ("job".data)
    ("0 10 * *".data) ("p".data)
  have hlen : (splitWsPy (trimChars ("0 10 * *".data))).length ≠ 5 := by
    decide
  ⟨hth.2.1, hlen, hth.2.1 hlen⟩

/-! ## Notification service: message splitting
(`NotificationService._split_message`) -/

/-- Does `sub` occur in `text` starting at index `i`? -/
def subAt (sub text : List Char) (i : Nat) : Bool :=
  (text.drop i).take sub.length = sub

/-- Highest start index `≤ i` at which `sub` occurs, scanning downward. -/
def rfindAux (sub text : List Char) : Nat → Option Nat
  | 0 => if subAt sub text 0 then some 0 else none
  | i + 1 => if subAt sub text (i + 1) then some (i + 1) else rfindAux sub text i

/-- Python `text.rfind(sub, 0, endB)`: highest index at which `sub` occurs
entirely within the first `endB` characters, if any. -/
def rfindSub (sub text : List Char) (endB : Nat) : Option Nat :=
  if sub.length ≤ endB then rfindAux sub text (endB - sub.length) else none

/-- The split position `_split_message` picks for an over-long `text`:
last paragraph break, else last newline, else last space (all within the
limit), else a hard split at the limit. -/
def splitPos (text : List Char) (maxLength : Nat) : Nat :=
  match rfindSub ['\n', '\n'] text maxLength with
  | some p => p
  | none =>
    match rfindSub ['\n'] text maxLength with
    | some p => p
    | none =>
      match rfindSub [' '] text maxLength with
      | some p => p
      | none => maxLength

/-- The `while text:` loop of `_split_message`: cut a chunk at the chosen
split position and continue on the left-stripped remainder. The fuel only
forces structural termination. -/
def splitLoop (maxLength : Nat) : Nat → List Char → List (List Char)
  | 0, _ => []
  | fuel + 1, text =>
    if text = [] then []
    else if text.length ≤ maxLength then [text]
    else
      text.take (splitPos text maxLength) ::
        splitLoop maxLength fuel
          ((text.drop (splitPos text maxLength)).dropWhile pyIsSpace)

/-- `_split_message`: short messages are returned whole, long ones go
through the split loop (Python default `max_length=3900`). -/
def splitMessage (text : List Char) (maxLength : Nat) : List (List Char) :=
  if text.length ≤ maxLength then [text] else
    splitLoop maxLength (text.length + 1) text

/-- The Slack platform limit `_split_message` is called with. -/
def splitDefaultMaxLength : Nat := 3900

/-- `Splices text chunks`: `text` is the chunks in order, interleaved with
(possibly empty) runs of whitespace removed at each split seam. -/
inductive Splices : List Char → List (List Char) → Prop
  | nil : Splices [] []
  | cons (c w rest : List Char) (cs : List (List Char)) :
      (∀ x ∈ w, pyIsSpace x = true) → Splices rest cs →
      Splices (c ++ w ++ rest) (c :: cs)

theorem rfindAux_le (sub text : List Char) :
    ∀ i p, rfindAux sub text i = some p → p ≤ i := by
  intro i
  induction i with
  | zero =>
    intro p h
    rw [rfindAux] at h
    split at h
    · cases h; exact le_refl 0
    · exact absurd h (by simp)
  | succ i ih =>
    intro p h
    rw [rfindAux] at h
    split at h
    · cases h; exact le_refl _
    · exact le_trans (ih p h) (by omega)

theorem rfindAux_subAt (sub text : List Char) :
    ∀ i p, rfindAux sub text i = some p → subAt sub text p = true := by
  intro i
  induction i with
  | zero =>
    intro p h
    rw [rfindAux] at h
    split at h
    · cases h; assumption
    · exact absurd h (by simp)
  | succ i ih =>
    intro p h
    rw [rfindAux] at h
    split at h
    · cases h; assumption
    · exact ih p h

theorem rfindSub_le (sub text : List Char) (endB p : Nat)
    (h : rfindSub sub text endB = some p) : p + sub.length ≤ endB := by
  rw [rfindSub] at h
  split at h
  · have := rfindAux_le sub text _ p h
    omega
  · exact absurd h (by simp)

theorem rfindSub_subAt (sub text : List Char) (endB p : Nat)
    (h : rfindSub sub text endB = some p) : subAt sub text p = true := by
  rw [rfindSub] at h
  split at h
  · exact rfindAux_subAt sub text _ p h
  · exact absurd h (by simp)

/-- A whitespace-headed pattern found at position 0 means the text starts
with whitespace. -/
theorem subAt_zero_head (s0 : Char) (stail text : List Char)
    (h : subAt (s0 :: stail) text 0 = true) :
    ∃ cs, text = s0 :: cs := by
  simp only [subAt, List.drop_zero, decide_eq_true_eq] at h
  cases text with
  | nil => simp at h
  | cons c cs =>
    rw [List.length_cons, List.take_succ_cons] at h
    exact ⟨cs, by rw [(List.cons.injEq _ _ _ _).mp h |>.1]⟩

/-- The chosen split position is within the limit (the limit when no
boundary was found), and a zero split position implies the text starts
with whitespace. -/
theorem splitPos_le (text : List Char) (maxLength : Nat) :
    splitPos text maxLength ≤ maxLength := by
  rw [splitPos]
  rcases h2 : rfindSub ['\n', '\n'] text maxLength with _ | p
  · rcases h1 : rfindSub ['\n'] text maxLength with _ | p
    · rcases h0 : rfindSub [' '] text maxLength with _ | p
      · simp
      · have hb := rfindSub_le _ _ _ _ h0
        simp only [List.length_cons, List.length_nil] at hb
        simp
        omega
    · have hb := rfindSub_le _ _ _ _ h1
      simp only [List.length_cons, List.length_nil] at hb
      simp
      omega
  · have hb := rfindSub_le _ _ _ _ h2
    simp only [List.length_cons, List.length_nil] at hb
    simp
    omega

theorem splitPos_zero_ws (text : List Char) (maxLength : Nat)
    (h : splitPos text maxLength = 0) (hmax : 1 ≤ maxLength) :
    ∃ c cs, text = c :: cs ∧ pyIsSpace c = true := by
  rw [splitPos] at h
  rcases h2 : rfindSub ['\n', '\n'] text maxLength with _ | p <;>
    simp only [h2] at h
  · rcases h1 : rfindSub ['\n'] text maxLength with _ | p <;>
      simp only [h1] at h
    · rcases h0 : rfindSub [' '] text maxLength with _ | p <;>
        simp only [h0] at h
      · omega
      · subst h
        obtain ⟨cs, hcs⟩ := subAt_zero_head ' ' [] text
          (rfindSub_subAt _ _ _ _ h0)
        exact ⟨' ', cs, hcs, by decide⟩
    · subst h
      obtain ⟨cs, hcs⟩ := subAt_zero_head '\n' [] text
        (rfindSub_subAt _ _ _ _ h1)
      exact ⟨'\n', cs, hcs, by decide⟩
  · subst h
    obtain ⟨cs, hcs⟩ := subAt_zero_head '\n' ['\n'] text
      (rfindSub_subAt _ _ _ _ h2)
    exact ⟨'\n', cs, hcs, by decide⟩

theorem splitLoop_spec (maxLength : Nat) (hmax : 1 ≤ maxLength) :
    ∀ (fuel : Nat) (text : List Char), text.length < fuel →
      (∀ c ∈ splitLoop maxLength fuel text, c.length ≤ maxLength) ∧
      Splices text (splitLoop maxLength fuel text) := by
  intro fuel
  induction fuel with
  | zero => intro text h; omega
  | succ fuel ih =>
    intro text hlen
    by_cases hnil : text = []
    · subst hnil
      rw [splitLoop]
      exact ⟨by simp, .nil⟩
    · by_cases hshort : text.length ≤ maxLength
      · rw [splitLoop, if_neg hnil, if_pos hshort]
        refine ⟨by simpa using hshort, ?_⟩
        have := Splices.cons text [] [] [] (by simp) .nil
        simpa using this
      · rw [splitLoop, if_neg hnil, if_neg hshort]
        have hsp := splitPos_le text maxLength
        have hprog :
            ((text.drop (splitPos text maxLength)).dropWhile pyIsSpace).length
              < text.length := by
          by_cases hz : splitPos text maxLength = 0
          · obtain ⟨c, cs, hcs, hws⟩ := splitPos_zero_ws text maxLength hz hmax
            subst hcs
            rw [hz, List.drop_zero, List.dropWhile_cons, if_pos hws]
            simp only [List.length_cons]
            exact Nat.lt_succ_of_le (dropWhile_length_le pyIsSpace cs)
          · have h1 : (text.drop (splitPos text maxLength)).length <
                text.length := by
              rw [List.length_drop]
              omega
            exact lt_of_le_of_lt (dropWhile_length_le _ _) h1
        obtain ⟨hihlen, hihsp⟩ :=
          ih ((text.drop (splitPos text maxLength)).dropWhile pyIsSpace)
            (by omega)
        refine ⟨?_, ?_⟩
        · intro c hc
          rcases List.mem_cons.mp hc with rfl | hc
          · rw [List.length_take]
            omega
          · exact hihlen c hc
        · have hsplit := Splices.cons (text.take (splitPos text maxLength))
            ((text.drop (splitPos text maxLength)).takeWhile pyIsSpace)
            ((text.drop (splitPos text maxLength)).dropWhile pyIsSpace)
            (splitLoop maxLength fuel
              ((text.drop (splitPos text maxLength)).dropWhile pyIsSpace))
            (fun x hx => List.mem_takeWhile_imp hx)
            hihsp
          rwa [List.append_assoc, List.takeWhile_append_dropWhile,
            List.take_append_drop] at hsplit

/-- C6: for every input text and positive length limit, `_split_message`
returns chunks each no longer than the limit, and the original text is
exactly the chunks in order interleaved with the whitespace runs removed
at the split seams (split points are chosen at paragraph, then line, then
word boundaries, then a hard cut, per `splitPos`). -/
theorem C6_split_message (text : List Char) (maxLength : Nat)
    (hmax : 1 ≤ maxLength) :
    (∀ c ∈ splitMessage text maxLength, c.length ≤ maxLength) ∧
    Splices text (splitMessage text maxLength) := by
  rw [splitMessage]
  by_cases hshort : text.length ≤ maxLength
  · rw [if_pos hshort]
    refine ⟨by simpa using hshort, ?_⟩
    have := Splices.cons text [] [] [] (by simp) .nil
    simpa using this
  · rw [if_neg hshort]
    exact splitLoop_spec maxLength hmax (text.length + 1) text (by omega)

/-- Witness for `C6_split_message` on a 10-character text with a
3-character limit. -/
theorem C6_split_message_witness :
    1 ≤ 3 ∧
    ((∀ c ∈ splitMessage ("ab cd\nef g".data) 3, c.length ≤ 3) ∧
      Splices ("ab cd\nef g".data) (splitMessage ("ab cd\nef g".data) 3)) :=
  ⟨by decide, C6_split_message ("ab cd\nef g".data) 3 (by decide)⟩

/-! ## Notification service: per-channel rate limiting
(`_rate_limited_send`, `_process_send_queue`)

Wall-clock instants are rationals; awaiting a network post or an explicit
sleep advances the clock, posts themselves are instantaneous sends. Each
awaited post carries a nonnegative latency. -/

/-- Minimum spacing between sends to one channel,
`SEND_INTERVAL_SECONDS = 1.1`. -/
def sendIntervalSeconds : ℚ := 11 / 10

/-- One outbound `chat_postMessage`: target channel and the instant the
post is issued. -/
structure Send where
  ch : List Char
  t : ℚ
  deriving DecidableEq, Repr

/-- The notification sender's mutable state: the event-loop clock and
`_last_send_per_channel`. -/
structure NotifState where
  time : ℚ
  lastSend : List (List Char × ℚ)
  deriving DecidableEq, Repr

/-- `self._last_send_per_channel.get(channel_id, 0.0)`. -/
def lookupLast (m : List (List Char × ℚ)) (ch : List Char) : ℚ :=
  match m.find? (fun p => p.1 == ch) with
  | some p => p.2
  | none => 0

/-- Dictionary store `self._last_send_per_channel[channel_id] = t`. -/
def setLast (m : List (List Char × ℚ)) (ch : List Char) (t : ℚ) :
    List (List Char × ℚ) :=
  (ch, t) :: m

/-- The chunk loop of `_rate_limited_send`: post each chunk (advancing the
clock by that post's latency), record the post-completion instant as the
channel's last send, and sleep one interval between chunks of a multi-chunk
message. Returns the final clock, the final recorded last send, and the
sends issued. -/
def sendChunks (ch : List Char) (multi : Bool) :
    List ℚ → ℚ → ℚ → ℚ × ℚ × List Send
  | [], time, last => (time, last, [])
  | δ :: rest, time, _last =>
    let t1 := time + δ
    let t2 := if multi then t1 + sendIntervalSeconds else t1
    let r := sendChunks ch multi rest t2 t1
    (r.1, r.2.1, ⟨ch, time⟩ :: r.2.2)

/-- `_rate_limited_send`: sleep whatever remains of the per-channel
interval since that channel's recorded last send, then send the chunks. -/
def rateLimitedSend (st : NotifState) (ch : List Char) (posts : List ℚ) :
    NotifState × List Send :=
  let last := lookupLast st.lastSend ch
  let wait := sendIntervalSeconds - (st.time - last)
  let t0 := if 0 < wait then st.time + wait else st.time
  let r := sendChunks ch (decide (1 < posts.length)) posts t0 last
  (⟨r.1, setLast st.lastSend ch r.2.1⟩, r.2.2)

/-- One dequeued event as `_process_send_queue` sees it: clock advance
before processing, then the resolved target channels, each with its chunk
post latencies. -/
structure NotifEvent where
  preDelay : ℚ
  targets : List (List Char × List ℚ)
  deriving DecidableEq, Repr

/-- The per-event channel loop of `_process_send_queue`. -/
def processChannels (st : NotifState) :
    List (List Char × List ℚ) → NotifState × List Send
  | [] => (st, [])
  | (ch, posts) :: rest =>
    let r1 := rateLimitedSend st ch posts
    let r2 := processChannels r1.1 rest
    (r2.1, r1.2 ++ r2.2)

/-- The drain loop of `_process_send_queue` over a queue of events. -/
def processQueue (st : NotifState) : List NotifEvent → NotifState × List Send
  | [] => (st, [])
  | ev :: evs =>
    let r1 := processChannels ⟨st.time + ev.preDelay, st.lastSend⟩ ev.targets
    let r2 := processQueue r1.1 evs
    (r2.1, r1.2 ++ r2.2)

/-- State sanity: no recorded last send lies in the future. -/
def NotifInv (st : NotifState) : Prop :=
  ∀ ch, lookupLast st.lastSend ch ≤ st.time

/-- Per-channel spacing over a trace: any two sends to the same channel
are at least the interval apart. -/
def SpacedPerChannel (tr : List Send) : Prop :=
  List.Pairwise (fun a b => a.ch = b.ch → a.t + sendIntervalSeconds ≤ b.t) tr

theorem lookupLast_setLast_same (m : List (List Char × ℚ)) (ch : List Char)
    (t : ℚ) : lookupLast (setLast m ch t) ch = t := by
  simp [lookupLast, setLast, List.find?]

theorem lookupLast_setLast_other (m : List (List Char × ℚ))
    (ch ch' : List Char) (t : ℚ) (h : ch' ≠ ch) :
    lookupLast (setLast m ch t) ch' = lookupLast m ch' := by
  have hne : (ch == ch') = false := by
    simp only [beq_eq_false_iff_ne, ne_eq]
    exact fun he => h he.symm
  simp [lookupLast, setLast, List.find?, hne]

theorem sendChunks_nil (ch : List Char) (multi : Bool) (time last : ℚ) :
    sendChunks ch multi [] time last = (time, last, []) := rfl

theorem sendChunks_cons (ch : List Char) (multi : Bool)
    (δ : ℚ) (rest : List ℚ) (time last : ℚ) :
    sendChunks ch multi (δ :: rest) time last =
      ((sendChunks ch multi rest
          (if multi then time + δ + sendIntervalSeconds else time + δ)
          (time + δ)).1,
        (sendChunks ch multi rest
          (if multi then time + δ + sendIntervalSeconds else time + δ)
          (time + δ)).2.1,
        ⟨ch, time⟩ :: (sendChunks ch multi rest
          (if multi then time + δ + sendIntervalSeconds else time + δ)
          (time + δ)).2.2) := rfl

theorem sendChunks_spec (ch : List Char) (multi : Bool) :
    ∀ (posts : List ℚ) (time last : ℚ),
      (∀ δ ∈ posts, 0 ≤ δ) → (1 < posts.length → multi = true) →
      last ≤ time →
      time ≤ (sendChunks ch multi posts time last).1
      ∧ (sendChunks ch multi posts time last).2.1 ≤
          (sendChunks ch multi posts time last).1
      ∧ last ≤ (sendChunks ch multi posts time last).2.1
      ∧ (∀ s ∈ (sendChunks ch multi posts time last).2.2,
          s.ch = ch ∧ time ≤ s.t ∧
            s.t ≤ (sendChunks ch multi posts time last).2.1)
      ∧ List.Pairwise (fun a b => a.t + sendIntervalSeconds ≤ b.t)
          (sendChunks ch multi posts time last).2.2 := by
  intro posts
  induction posts with
  | nil =>
    intro time last _ _ hl
    rw [sendChunks_nil]
    exact ⟨le_refl _, hl, le_refl _, by simp, by simp⟩
  | cons δ rest ih =>
    intro time last h0 hm hl
    have hδ : 0 ≤ δ := h0 δ (by simp)
    have ht1 : time ≤ time + δ := by linarith
    have ht2 : time + δ ≤
        (if multi then time + δ + sendIntervalSeconds else time + δ) := by
      split
      · have hI : (0 : ℚ) ≤ sendIntervalSeconds := by
          norm_num [sendIntervalSeconds]
        linarith
      · exact le_refl _
    obtain ⟨ihtime, ihlf, ihlast, ihsends, ihpw⟩ :=
      ih (if multi then time + δ + sendIntervalSeconds else time + δ)
        (time + δ) (fun x hx => h0 x (by simp [hx]))
        (fun hlen => hm (by simp only [List.length_cons]; omega)) ht2
    rw [sendChunks_cons]
    refine ⟨le_trans (le_trans ht1 ht2) ihtime, ihlf,
      le_trans (le_trans hl ht1) ihlast, ?_, ?_⟩
    · intro s hs
      rcases List.mem_cons.mp hs with rfl | hs
      · exact ⟨rfl, le_refl _, le_trans ht1 ihlast⟩
      · obtain ⟨h1, h2, h3⟩ := ihsends s hs
        exact ⟨h1, le_trans (le_trans ht1 ht2) h2, h3⟩
    · refine List.Pairwise.cons ?_ ihpw
      intro s hs
      have hmul : multi = true := by
        apply hm
        cases rest with
        | nil => rw [sendChunks_nil] at hs; exact absurd hs (by simp)
        | cons x xs => simp only [List.length_cons]; omega
      obtain ⟨_, h2, _⟩ := ihsends s hs
      rw [hmul, if_pos rfl] at h2
      show time + sendIntervalSeconds ≤ s.t
      linarith

theorem rateLimitedSend_eq (st : NotifState) (ch : List Char)
    (posts : List ℚ) :
    rateLimitedSend st ch posts =
      (⟨(sendChunks ch (decide (1 < posts.length)) posts
          (if 0 < sendIntervalSeconds - (st.time - lookupLast st.lastSend ch)
            then st.time +
              (sendIntervalSeconds - (st.time - lookupLast st.lastSend ch))
            else st.time) (lookupLast st.lastSend ch)).1,
        setLast st.lastSend ch
          ((sendChunks ch (decide (1 < posts.length)) posts
            (if 0 < sendIntervalSeconds -
                (st.time - lookupLast st.lastSend ch)
              then st.time +
                (sendIntervalSeconds - (st.time - lookupLast st.lastSend ch))
              else st.time) (lookupLast st.lastSend ch)).2.1)⟩,
        (sendChunks ch (decide (1 < posts.length)) posts
          (if 0 < sendIntervalSeconds - (st.time - lookupLast st.lastSend ch)
            then st.time +
              (sendIntervalSeconds - (st.time - lookupLast st.lastSend ch))
            else st.time) (lookupLast st.lastSend ch)).2.2) := rfl

theorem rateLimitedSend_spec (st : NotifState) (ch : List Char)
    (posts : List ℚ) (h0 : ∀ δ ∈ posts, 0 ≤ δ) (hInv : NotifInv st) :
    NotifInv (rateLimitedSend st ch posts).1
    ∧ st.time ≤ (rateLimitedSend st ch posts).1.time
    ∧ (∀ s ∈ (rateLimitedSend st ch posts).2,
        lookupLast st.lastSend s.ch + sendIntervalSeconds ≤ s.t)
    ∧ (∀ s ∈ (rateLimitedSend st ch posts).2,
        s.t ≤ lookupLast (rateLimitedSend st ch posts).1.lastSend s.ch)
    ∧ List.Pairwise (fun a b => a.t + sendIntervalSeconds ≤ b.t)
        (rateLimitedSend st ch posts).2
    ∧ (∀ ch', lookupLast st.lastSend ch' ≤
        lookupLast (rateLimitedSend st ch posts).1.lastSend ch') := by
  have hlast : lookupLast st.lastSend ch ≤ st.time := hInv ch
  have ht0time : st.time ≤
      (if 0 < sendIntervalSeconds - (st.time - lookupLast st.lastSend ch)
        then st.time +
          (sendIntervalSeconds - (st.time - lookupLast st.lastSend ch))
        else st.time) := by
    split
    · next hw => linarith
    · exact le_refl _
  have ht0last : lookupLast st.lastSend ch + sendIntervalSeconds ≤
      (if 0 < sendIntervalSeconds - (st.time - lookupLast st.lastSend ch)
        then st.time +
          (sendIntervalSeconds - (st.time - lookupLast st.lastSend ch))
        else st.time) := by
    split
    · next hw => linarith
    · next hw => linarith
  obtain ⟨hct, hclf, hclast, hcsends, hcpw⟩ :=
    sendChunks_spec ch (decide (1 < posts.length)) posts
      (if 0 < sendIntervalSeconds - (st.time - lookupLast st.lastSend ch)
        then st.time +
          (sendIntervalSeconds - (st.time - lookupLast st.lastSend ch))
        else st.time) (lookupLast st.lastSend ch) h0
      (fun hlen => by simp [hlen]) (le_trans hlast ht0time)
  rw [rateLimitedSend_eq]
  refine ⟨?_, le_trans ht0time hct, ?_, ?_, hcpw, ?_⟩
  · intro ch''
    by_cases hc : ch'' = ch
    · subst hc
      rw [lookupLast_setLast_same]
      exact hclf
    · rw [lookupLast_setLast_other _ _ _ _ hc]
      exact le_trans (hInv ch'') (le_trans ht0time hct)
  · intro s hs
    obtain ⟨hch, hts, _⟩ := hcsends s hs
    rw [hch]
    exact le_trans ht0last hts
  · intro s hs
    obtain ⟨hch, _, hts⟩ := hcsends s hs
    rw [hch, lookupLast_setLast_same]
    exact hts
  · intro ch'
    by_cases hc : ch' = ch
    · subst hc
      rw [lookupLast_setLast_same]
      exact hclast
    · rw [lookupLast_setLast_other _ _ _ _ hc]

theorem processChannels_nil (st : NotifState) :
    processChannels st [] = (st, []) := rfl

theorem processChannels_cons (st : NotifState) (ch : List Char)
    (posts : List ℚ) (rest : List (List Char × List ℚ)) :
    processChannels st ((ch, posts) :: rest) =
      ((processChannels (rateLimitedSend st ch posts).1 rest).1,
        (rateLimitedSend st ch posts).2 ++
          (processChannels (rateLimitedSend st ch posts).1 rest).2) := rfl

theorem processChannels_spec (targets : List (List Char × List ℚ)) :
    ∀ (st : NotifState), (∀ tgt ∈ targets, ∀ δ ∈ tgt.2, 0 ≤ δ) →
      NotifInv st →
      NotifInv (processChannels st targets).1
      ∧ st.time ≤ (processChannels st targets).1.time
      ∧ (∀ ch', lookupLast st.lastSend ch' ≤
          lookupLast (processChannels st targets).1.lastSend ch')
      ∧ (∀ s ∈ (processChannels st targets).2,
          lookupLast st.lastSend s.ch + sendIntervalSeconds ≤ s.t)
      ∧ (∀ s ∈ (processChannels st targets).2,
          s.t ≤ lookupLast (processChannels st targets).1.lastSend s.ch)
      ∧ SpacedPerChannel (processChannels st targets).2 := by
  induction targets with
  | nil =>
    intro st _ hInv
    rw [processChannels_nil]
    exact ⟨hInv, le_refl _, fun _ => le_refl _, by simp, by simp,
      by simp [SpacedPerChannel]⟩
  | cons tgt rest ih =>
    obtain ⟨ch, posts⟩ := tgt
    intro st htg hInv
    obtain ⟨r1Inv, r1time, r1lb, r1ub, r1pw, r1mono⟩ :=
      rateLimitedSend_spec st ch posts (htg (ch, posts) (by simp)) hInv
    obtain ⟨r2Inv, r2time, r2mono, r2lb, r2ub, r2pw⟩ :=
      ih (rateLimitedSend st ch posts).1
        (fun t ht => htg t (by simp [ht])) r1Inv
    rw [processChannels_cons]
    refine ⟨r2Inv, le_trans r1time r2time,
      fun ch' => le_trans (r1mono ch') (r2mono ch'), ?_, ?_, ?_⟩
    · intro s hs
      rcases List.mem_append.mp hs with hs | hs
      · exact r1lb s hs
      · exact le_trans (add_le_add_right (r1mono s.ch) _) (r2lb s hs)
    · intro s hs
      rcases List.mem_append.mp hs with hs | hs
      · exact le_trans (r1ub s hs) (r2mono s.ch)
      · exact r2ub s hs
    · rw [SpacedPerChannel, List.pairwise_append]
      refine ⟨?_, r2pw, ?_⟩
      · apply List.Pairwise.imp _ r1pw
        intro a b hab _
        exact hab
      intro a ha b hb hch
      have hat : a.t ≤ lookupLast (rateLimitedSend st ch posts).1.lastSend a.ch :=
        r1ub a ha
      have hbt : lookupLast (rateLimitedSend st ch posts).1.lastSend b.ch +
          sendIntervalSeconds ≤ b.t := r2lb b hb
      rw [hch] at hat
      linarith

theorem processQueue_nil (st : NotifState) : processQueue st [] = (st, []) := rfl

theorem processQueue_cons (st : NotifState) (ev : NotifEvent)
    (evs : List NotifEvent) :
    processQueue st (ev :: evs) =
      ((processQueue
          (processChannels ⟨st.time + ev.preDelay, st.lastSend⟩ ev.targets).1
          evs).1,
        (processChannels ⟨st.time + ev.preDelay, st.lastSend⟩ ev.targets).2 ++
          (processQueue
            (processChannels ⟨st.time + ev.preDelay, st.lastSend⟩
              ev.targets).1 evs).2) := rfl

theorem processQueue_spec (events : List NotifEvent) :
    ∀ (st : NotifState),
      (∀ ev ∈ events, 0 ≤ ev.preDelay ∧ ∀ tgt ∈ ev.targets, ∀ δ ∈ tgt.2,
        0 ≤ δ) →
      NotifInv st →
      NotifInv (processQueue st events).1
      ∧ (∀ ch', lookupLast st.lastSend ch' ≤
          lookupLast (processQueue st events).1.lastSend ch')
      ∧ (∀ s ∈ (processQueue st events).2,
          lookupLast st.lastSend s.ch + sendIntervalSeconds ≤ s.t)
      ∧ (∀ s ∈ (processQueue st events).2,
          s.t ≤ lookupLast (processQueue st events).1.lastSend s.ch)
      ∧ SpacedPerChannel (processQueue st events).2 := by
  induction events with
  | nil =>
    intro st _ hInv
    rw [processQueue_nil]
    exact ⟨hInv, fun _ => le_refl _, by simp, by simp,
      by simp [SpacedPerChannel]⟩
  | cons ev evs ih =>
    intro st hev hInv
    have hInv' : NotifInv ⟨st.time + ev.preDelay, st.lastSend⟩ := by
      intro ch'
      have := hInv ch'
      have hd := (hev ev (by simp)).1
      show lookupLast st.lastSend ch' ≤ st.time + ev.preDelay
      linarith
    obtain ⟨r1Inv, _, r1mono, r1lb, r1ub, r1pw⟩ :=
      processChannels_spec ev.targets ⟨st.time + ev.preDelay, st.lastSend⟩
        (hev ev (by simp)).2 hInv'
    obtain ⟨r2Inv, r2mono, r2lb, r2ub, r2pw⟩ :=
      ih (processChannels ⟨st.time + ev.preDelay, st.lastSend⟩ ev.targets).1
        (fun e he => hev e (by simp [he])) r1Inv
    rw [processQueue_cons]
    refine ⟨r2Inv, fun ch' => le_trans (r1mono ch') (r2mono ch'), ?_, ?_, ?_⟩
    · intro s hs
      rcases List.mem_append.mp hs with hs | hs
      · exact r1lb s hs
      · exact le_trans (add_le_add_right (r1mono s.ch) _) (r2lb s hs)
    · intro s hs
      rcases List.mem_append.mp hs with hs | hs
      · exact le_trans (r1ub s hs) (r2mono s.ch)
      · exact r2ub s hs
    · rw [SpacedPerChannel, List.pairwise_append]
      refine ⟨r1pw, r2pw, ?_⟩
      intro a ha b hb hch
      have hat := r1ub a ha
      have hbt := r2lb b hb
      rw [hch] at hat
      linarith

/-- C7 (part of the claim statement): delivery drains events sequentially,
starting from a fresh sender state. -/
def notifRun (t0 : ℚ) (events : List NotifEvent) : List Send :=
  (processQueue ⟨t0, []⟩ events).2

/-- C7: across an arbitrary queue of back-to-back events (with arbitrary
nonnegative dequeue delays and post latencies), no two sends to the same
channel are ever closer together than `SEND_INTERVAL_SECONDS`, including
between the chunks of one split message; and the constraint is per
channel: when the target channel's own last send is at least one interval
old, `_rate_limited_send` posts the first chunk immediately at the current
time, regardless of the recorded last sends of any other channel. -/
theorem C7_rate_limiting (t0 : ℚ) (ht0 : 0 ≤ t0) (events : List NotifEvent)
    (hev : ∀ ev ∈ events, 0 ≤ ev.preDelay ∧ ∀ tgt ∈ ev.targets, ∀ δ ∈ tgt.2,
      0 ≤ δ) :
    SpacedPerChannel (notifRun t0 events)
    ∧ (∀ (st : NotifState) (ch : List Char) (δ : ℚ) (rest : List ℚ),
        sendIntervalSeconds ≤ st.time - lookupLast st.lastSend ch →
        ∃ tail, (rateLimitedSend st ch (δ :: rest)).2 =
          ⟨ch, st.time⟩ :: tail) := by
  constructor
  · have hInv0 : NotifInv ⟨t0, []⟩ := by
      intro ch
      show lookupLast [] ch ≤ t0
      simpa [lookupLast] using ht0
    exact (processQueue_spec events ⟨t0, []⟩ hev hInv0).2.2.2.2
  · intro st ch δ rest hold
    rw [rateLimitedSend_eq]
    rw [if_neg (by linarith)]
    rw [sendChunks_cons]
    exact ⟨_, rfl⟩

/-- Witness for `C7_rate_limiting`: two back-to-back events for the same
channel, the first split into two chunks. -/
theorem C7_rate_limiting_witness :
    ((0 : ℚ) ≤ 0 ∧
      (∀ ev ∈ [NotifEvent.mk 0 [("C1".data, [0, 0])],
          NotifEvent.mk 0 [("C1".data, [0])]],
        0 ≤ ev.preDelay ∧ ∀ tgt ∈ ev.targets, ∀ δ ∈ tgt.2, 0 ≤ δ)) ∧
    (SpacedPerChannel (notifRun 0 [NotifEvent.mk 0 [("C1".data, [0, 0])],
        NotifEvent.mk 0 [("C1".data, [0])]])
      ∧ (∀ (st : NotifState) (ch : List Char) (δ : ℚ) (rest : List ℚ),
          sendIntervalSeconds ≤ st.time - lookupLast st.lastSend ch →
          ∃ tail, (rateLimitedSend st ch (δ :: rest)).2 =
            ⟨ch, st.time⟩ :: tail)) :=
  ⟨⟨le_refl 0, by decide⟩,
    C7_rate_limiting 0 (le_refl 0)
      [NotifEvent.mk 0 [("C1".data, [0, 0])], NotifEvent.mk 0 [("C1".data, [0])]]
      (by decide)⟩

/-! ## Channel router: `current_directory` stays inside the project root
(`_apply_channel_routing_context`, `_persist_channel_state`)

Resolved absolute paths are modelled as lists of path components;
`Path.relative_to(root)` succeeds exactly when the root's components are a
prefix of the path's, and `Path.is_dir` is the filesystem environment,
passed in as a predicate. -/

/-- `Orchestrator._is_within`: `path.relative_to(root)` succeeds. -/
def isWithin (path root : List (List Char)) : Bool :=
  root.isPrefixOf path

/-- The `current_directory` computation of
`_apply_channel_routing_context` (the read path): take the persisted value
if present (else the project root), and fall back to the project root when
it is outside the root or not an existing directory. -/
def applyRoutingCurrentDir (isDir : List (List Char) → Bool)
    (projectRoot : List (List Char)) (raw : Option (List (List Char))) :
    List (List Char) :=
  let currentDir := match raw with | some p => p | none => projectRoot
  if !isWithin currentDir projectRoot || !isDir currentDir then projectRoot
  else currentDir

/-- The `current_directory` computation of `_persist_channel_state` (the
write path): same guard before the state is stored. -/
def persistCurrentDir (isDir : List (List Char) → Bool)
    (projectRoot : List (List Char)) (currentDir? : Option (List (List Char))) :
    List (List Char) :=
  let currentDir := match currentDir? with | some p => p | none => projectRoot
  if !isWithin currentDir projectRoot || !isDir currentDir then projectRoot
  else currentDir

theorem isWithin_refl (root : List (List Char)) : isWithin root root = true := by
  simp [isWithin, List.isPrefixOf_iff_prefix]

theorem persistCurrentDir_spec (isDir : List (List Char) → Bool)
    (root : List (List Char)) (x : Option (List (List Char))) :
    isWithin (persistCurrentDir isDir root x) root = true
    ∧ (∀ p, x = some p → (isWithin p root = false ∨ isDir p = false) →
        persistCurrentDir isDir root x = root)
    ∧ (persistCurrentDir isDir root x = root ∨
        isDir (persistCurrentDir isDir root x) = true) := by
  rw [persistCurrentDir.eq_def]
  by_cases hc : (!isWithin (match x with | some p => p | none => root) root
      || !isDir (match x with | some p => p | none => root)) = true
  · rw [if_pos hc]
    exact ⟨isWithin_refl root, fun _ _ _ => rfl, Or.inl rfl⟩
  · rw [if_neg hc]
    simp only [Bool.or_eq_true, Bool.not_eq_true', not_or,
      Bool.not_eq_false] at hc
    refine ⟨hc.1, ?_, Or.inr hc.2⟩
    intro p hp hbad
    rw [hp] at hc
    rcases hbad with hb | hb <;> simp [hb] at hc

theorem applyRouting_eq_persist (isDir : List (List Char) → Bool)
    (root : List (List Char)) (x : Option (List (List Char))) :
    applyRoutingCurrentDir isDir root x = persistCurrentDir isDir root x := rfl

/-- C5: on both the read path and the write path, the resulting
`current_directory` always lies inside the project root; a persisted value
that is outside the root or not an existing directory is rejected and
replaced by the project root; and the result is the project root itself
unless it is an existing directory. -/
theorem C5_current_directory (isDir : List (List Char) → Bool)
    (root : List (List Char)) (raw rawW : Option (List (List Char))) :
    isWithin (applyRoutingCurrentDir isDir root raw) root = true
    ∧ isWithin (persistCurrentDir isDir root rawW) root = true
    ∧ (∀ p, raw = some p → (isWithin p root = false ∨ isDir p = false) →
        applyRoutingCurrentDir isDir root raw = root)
    ∧ (∀ p, rawW = some p → (isWithin p root = false ∨ isDir p = false) →
        persistCurrentDir isDir root rawW = root)
    ∧ (applyRoutingCurrentDir isDir root raw = root ∨
        isDir (applyRoutingCurrentDir isDir root raw) = true)
    ∧ (persistCurrentDir isDir root rawW = root ∨
        isDir (persistCurrentDir isDir root rawW) = true) := by
  obtain ⟨h1, h2, h3⟩ := persistCurrentDir_spec isDir root raw
  obtain ⟨h1w, h2w, h3w⟩ := persistCurrentDir_spec isDir root rawW
  rw [applyRouting_eq_persist]
  exact ⟨h1, h1w, h2, h2w, h3, h3w⟩

/-! ## Channel router: mention gating (`_check_mention_required`) -/

/-- Regex word character, Python `\w` (ASCII). -/
def isWordChar (c : Char) : Bool :=
  isDigitC c || ('a' ≤ c && c ≤ 'z') || ('A' ≤ c && c ≤ 'Z') || c = '_'

/-- Word boundaries around an occurrence of an all-word-character `name`
starting at `i` in `text`, as the regex `\b name \b` requires. -/
def wordBoundary (name text : List Char) (i : Nat) : Bool :=
  (decide (i = 0) || !isWordChar (text.getD (i - 1) ' ')) &&
  (decide (text.length ≤ i + name.length) ||
    !isWordChar (text.getD (i + name.length) ' '))

/-- A whole-word occurrence of `name` at position `i`. -/
def nameMatchAt (name text : List Char) (i : Nat) : Bool :=
  subAt name text i && wordBoundary name text i

/-- Scan upward for the leftmost whole-word occurrence, as `re.search`. -/
def findNameAux (name text : List Char) : Nat → Nat → Option Nat
  | _, 0 => none
  | i, fuel + 1 =>
    if nameMatchAt name text i then some i
    else findNameAux name text (i + 1) fuel

/-- `re.search(r"\b<name>\b", text)`: leftmost whole-word match index. -/
def findName (name text : List Char) : Option Nat :=
  findNameAux name text 0 (text.length + 1)

/-- Uppercase letter or digit, the class `[A-Z0-9]`. -/
def isUpperOrDigit (c : Char) : Bool :=
  ('A' ≤ c && c ≤ 'Z') || isDigitC c

/-- Match the pattern `<@U[A-Z0-9]+>\s*` at the start of `t`; on success
return the remainder after the match. -/
def markerConsume (t : List Char) : Option (List Char) :=
  if t.take 3 = ['<', '@', 'U'] then
    let rest := t.drop 3
    let run := rest.takeWhile isUpperOrDigit
    if run.isEmpty then none
    else
      match rest.drop run.length with
      | '>' :: tail => some (tail.dropWhile pyIsSpace)
      | _ => none
  else none

/-- `re.search(r"<@U[A-Z0-9]+>", t)`: does a mention marker occur
anywhere? -/
def hasMarker (t : List Char) : Bool :=
  (List.range (t.length + 1)).any fun i => (markerConsume (t.drop i)).isSome

/-- `re.sub(r"<@U[A-Z0-9]+>\s*", "", t)`: left-to-right removal of every
non-overlapping marker (with its trailing whitespace). -/
def subMarkers : Nat → List Char → List Char
  | 0, _ => []
  | fuel + 1, t =>
    match t with
    | [] => []
    | c :: rest =>
      match markerConsume (c :: rest) with
      | some tail => subMarkers fuel tail
      | none => c :: subMarkers fuel rest

/-- Remove every mention marker from `t`. -/
def removeMarkers (t : List Char) : List Char :=
  subMarkers t.length t

/-- The punctuation set of `cleaned.strip(" ,:;-")`. -/
def mentionStripSet : List Char := [' ', ',', ':', ';', '-']

/-- `_check_mention_required`: pass the text through when the channel does
not gate on mentions or is a direct conversation; otherwise require the
bot name as a whole word (case-insensitive, searched on the left-stripped
lowercased text) or a Slack mention marker; strip the trigger before using
the text as the prompt, falling back to the original text when stripping
leaves nothing; return `none` (drop silently) when neither trigger is
present. -/
def checkMentionRequired (botName : List Char) (requireMention : Bool)
    (channel : List Char) (messageText : List Char) : Option (List Char) :=
  if !requireMention then some messageText
  else if channel.take 1 = ['D'] then some messageText
  else
    let stripped := lstripChars messageText
    let lower := stripped.map Char.toLower
    let nameLower := botName.map Char.toLower
    match findName nameLower lower with
    | some s =>
      let cleaned := stripSet mentionStripSet
        (stripped.take s ++ stripped.drop (s + nameLower.length))
      some (if cleaned.isEmpty then messageText else cleaned)
    | none =>
      if hasMarker stripped then
        let remainder := trimChars (removeMarkers stripped)
        some (if remainder.isEmpty then messageText else remainder)
      else none

theorem findNameAux_spec (name text : List Char) :
    ∀ (fuel i s : Nat), findNameAux name text i fuel = some s →
      i ≤ s ∧ nameMatchAt name text s = true ∧
        ∀ j, i ≤ j → j < s → nameMatchAt name text j = false := by
  intro fuel
  induction fuel with
  | zero => intro i s h; exact absurd h (by simp [findNameAux])
  | succ fuel ih =>
    intro i s h
    rw [findNameAux] at h
    by_cases hm : nameMatchAt name text i = true
    · rw [if_pos hm] at h
      cases h
      exact ⟨le_refl _, hm, fun j h1 h2 => by omega⟩
    · rw [if_neg hm] at h
      obtain ⟨h1, h2, h3⟩ := ih (i + 1) s h
      refine ⟨by omega, h2, ?_⟩
      intro j hj1 hj2
      by_cases hji : j = i
      · subst hji
        exact Bool.eq_false_iff.mpr hm
      · exact h3 j (by omega) hj2

/-- C8 (amended): without `require_mention`, or in a D-prefixed (direct)
channel, the text passes through unchanged; in a gated non-direct channel,
a message containing neither the bot name as a whole word nor a mention
marker yields `none` (silently dropped); when the bot name occurs, the
*leftmost* whole-word occurrence is removed (and the surrounding
punctuation stripped), falling back to the original text when nothing
remains; when only mention markers occur, *all* markers (not just the
first) are removed. -/
theorem C8_mention_gating (botName channel messageText : List Char) :
    checkMentionRequired botName false channel messageText = some messageText
    ∧ (channel.take 1 = ['D'] →
        checkMentionRequired botName true channel messageText =
          some messageText)
    ∧ (channel.take 1 ≠ ['D'] →
        findName (botName.map Char.toLower)
          ((lstripChars messageText).map Char.toLower) = none →
        hasMarker (lstripChars messageText) = false →
        checkMentionRequired botName true channel messageText = none)
    ∧ (∀ s, channel.take 1 ≠ ['D'] →
        findName (botName.map Char.toLower)
          ((lstripChars messageText).map Char.toLower) = some s →
        (nameMatchAt (botName.map Char.toLower)
            ((lstripChars messageText).map Char.toLower) s = true ∧
          ∀ j < s, nameMatchAt (botName.map Char.toLower)
            ((lstripChars messageText).map Char.toLower) j = false) ∧
        checkMentionRequired botName true channel messageText =
          some (if (stripSet mentionStripSet
              ((lstripChars messageText).take s ++
                (lstripChars messageText).drop
                  (s + (botName.map Char.toLower).length))).isEmpty
            then messageText
            else stripSet mentionStripSet
              ((lstripChars messageText).take s ++
                (lstripChars messageText).drop
                  (s + (botName.map Char.toLower).length))))
    ∧ (channel.take 1 ≠ ['D'] →
        findName (botName.map Char.toLower)
          ((lstripChars messageText).map Char.toLower) = none →
        hasMarker (lstripChars messageText) = true →
        checkMentionRequired botName true channel messageText =
          some (if (trimChars (removeMarkers (lstripChars messageText))).isEmpty
            then messageText
            else trimChars (removeMarkers (lstripChars messageText)))) := by
  refine ⟨rfl, ?_, ?_, ?_, ?_⟩
  · intro hD
    rw [checkMentionRequired]
    rw [if_neg (by simp), if_pos hD]
  · intro hD hname hmark
    rw [checkMentionRequired]
    rw [if_neg (by simp), if_neg hD]
    simp only [hname, hmark]
    rfl
  · intro s hD hname
    constructor
    · obtain ⟨_, h2, h3⟩ := findNameAux_spec _ _ _ _ _ hname
      exact ⟨h2, fun j hj => h3 j (by omega) hj⟩
    · rw [checkMentionRequired]
      rw [if_neg (by simp), if_neg hD]
      simp only [hname]
  · intro hD hname hmark
    rw [checkMentionRequired]
    rw [if_neg (by simp), if_neg hD]
    simp only [hname, hmark]
    rfl

/-- C8 counterexample: for a gated non-direct channel and a message with
two mention markers, the check removes both markers, not only the first
occurrence as claimed: stripping the first occurrence of the trigger from
`"<@U1> go <@U2> now"` would yield `"go <@U2> now"`, but the check yields
`"go now"`. -/
theorem C8_counterexample :
    checkMentionRequired ("Pan".data) true ("C123".data)
      ("<@U1> go <@U2> now".data) = some ("go now".data)
    ∧ some ("go now".data) ≠ some ("go <@U2> now".data) := by
  refine ⟨by decide, by decide⟩

/-! ## Interactive rendezvous (`_make_ask_user_callback`,
`_ask_user_action_handler`)

The in-memory `_pending_questions` table is an association list with the
newest binding first (matching dictionary read/update/delete semantics);
an entry holds the question texts, the answers recorded so far, and the
state of the `asyncio.Event` the blocked caller waits on. `clicks` are the
button invocations whose handler ran before `asyncio.wait_for` returned or
timed out; the wait returns answers exactly when some click set the
event. -/

/-- One `_pending_questions` entry. -/
structure PendingQuestion where
  questions : List (List Char)
  answers : List (List Char × List Char)
  eventSet : Bool
  deriving DecidableEq, Repr

/-- The in-memory `_pending_questions` table. -/
def PendingTable : Type := List (List Char × PendingQuestion)

/-- Dictionary read `self._pending_questions.get(key)`. -/
def lookupPending (tbl : PendingTable) (key : List Char) :
    Option PendingQuestion :=
  (List.find? (fun p => p.1 == key) tbl).map (fun p => p.2)

/-- Dictionary write `self._pending_questions[key] = pq`. -/
def setPending (tbl : PendingTable) (key : List Char) (pq : PendingQuestion) :
    PendingTable :=
  (key, pq) :: tbl

/-- Dictionary delete `del self._pending_questions[key]`. -/
def erasePending (tbl : PendingTable) (key : List Char) : PendingTable :=
  List.filter (fun p => !(p.1 == key)) tbl

/-- The unique per-rendezvous key, `f"{channel}:{user_id}"`. -/
def interactionKey (channel userId : List Char) : List Char :=
  channel ++ ':' :: userId

/-- The button `action_id`, `f"ask_user_{interaction_key}_{i}"`. -/
def mkActionId (key : List Char) (i : Nat) : List Char :=
  "ask_user_".data ++ (key ++ '_' :: natToChars i)

/-- The configured rendezvous timeout, seconds
(`asyncio.wait_for(..., timeout=300)`). -/
def askTimeoutSeconds : Nat := 300

/-- `_ask_user_action_handler`: parse the `action_id` (prefix check, then
`rsplit("_", 1)` to recover the interaction key), look the pending entry
up, record the selected value against the first question's text, and set
the entry's event; unknown actions and missing entries leave the table
unchanged. -/
def askUserActionHandler (tbl : PendingTable) (actionId value : List Char) :
    PendingTable :=
  if actionId.take 9 = "ask_user_".data then
    match rfindSub ['_'] (actionId.drop 9) (actionId.drop 9).length with
    | none => tbl
    | some p =>
      match lookupPending tbl ((actionId.drop 9).take p) with
      | none => tbl
      | some pending =>
        setPending tbl ((actionId.drop 9).take p)
          (match pending.questions with
          | [] => { pending with eventSet := true }
          | q0 :: _ =>
            ⟨pending.questions, (q0, value) :: pending.answers, true⟩)
  else tbl

/-- What the blocked `ask` coroutine does when `asyncio.wait_for` returns
or times out: read the entry, return its answers when the event was set
(else the empty result), and delete the entry either way. -/
def askUserAwait (tbl : PendingTable) (key : List Char) :
    List (List Char × List Char) × PendingTable :=
  match lookupPending tbl key with
  | some pq =>
    if pq.eventSet then (pq.answers, erasePending tbl key)
    else ([], erasePending tbl key)
  | none => ([], erasePending tbl key)

/-- The `_ask_user` coroutine of `_make_ask_user_callback`: empty question
sets return immediately; otherwise register the pending entry, post the
question (deleting the entry and returning empty on delivery failure),
let the in-window button handlers run, then wake. -/
def askUser (tbl : PendingTable) (channel userId : List Char)
    (questions : List (List Char)) (postOk : Bool)
    (clicks : List (List Char × List Char)) :
    List (List Char × List Char) × PendingTable :=
  if questions.isEmpty then ([], tbl)
  else if !postOk then
    ([], erasePending
      (setPending tbl (interactionKey channel userId) ⟨questions, [], false⟩)
      (interactionKey channel userId))
  else
    askUserAwait
      (List.foldl (fun t c => askUserActionHandler t c.1 c.2)
        (setPending tbl (interactionKey channel userId)
          ⟨questions, [], false⟩) clicks)
      (interactionKey channel userId)

theorem lookupPending_set_same (tbl : PendingTable) (key : List Char)
    (pq : PendingQuestion) : lookupPending (setPending tbl key pq) key = some pq := by
  simp [lookupPending, setPending, List.find?]

theorem lookupPending_erase (tbl : PendingTable) (key : List Char) :
    lookupPending (erasePending tbl key) key = none := by
  induction tbl with
  | nil => rfl
  | cons p ps ih =>
    rw [erasePending, List.filter_cons]
    by_cases hp : (p.1 == key) = true
    · simp only [hp, Bool.not_true, if_neg]
      exact ih
    · have hp' : (!(p.1 == key)) = true := by simp [hp]
      rw [if_pos hp']
      simp only [lookupPending, List.find?, hp]
      exact ih

theorem rfindAux_exact (sub text : List Char) (p : Nat) :
    ∀ i, p ≤ i → subAt sub text p = true →
      (∀ j, p < j → j ≤ i → subAt sub text j = false) →
      rfindAux sub text i = some p := by
  intro i
  induction i with
  | zero =>
    intro hp hs _
    have hp0 : p = 0 := by omega
    subst hp0
    rw [rfindAux, if_pos hs]
  | succ i ih =>
    intro hp hs hno
    by_cases hpi : p = i + 1
    · subst hpi
      rw [rfindAux, if_pos hs]
    · have hfalse : subAt sub text (i + 1) = false :=
        hno (i + 1) (by omega) (le_refl _)
      rw [rfindAux, if_neg (by simp [hfalse])]
      exact ih (by omega) hs (fun j h1 h2 => hno j h1 (by omega))

theorem subAt_single_sep (key ds : List Char) :
    subAt ['_'] (key ++ '_' :: ds) key.length = true := by
  simp only [subAt, List.drop_left]
  rfl

theorem rfind_underscore_sep (key ds : List Char)
    (hds : ∀ d ∈ ds, d ≠ '_') :
    rfindSub ['_'] (key ++ '_' :: ds) (key ++ '_' :: ds).length =
      some key.length := by
  rw [rfindSub, if_pos (by
    simp only [List.length_append, List.length_cons, List.length_nil]
    omega)]
  apply rfindAux_exact
  · simp only [List.length_append, List.length_cons, List.length_nil]
    omega
  · exact subAt_single_sep key ds
  · intro j hj1 hj2
    by_contra hcon
    simp only [Bool.not_eq_false] at hcon
    obtain ⟨m, hm⟩ : ∃ m, j = key.length + 1 + m :=
      ⟨j - (key.length + 1), by omega⟩
    subst hm
    have hdrop : (key ++ '_' :: ds).drop (key.length + 1 + m) = ds.drop m := by
      rw [show key ++ '_' :: ds = (key ++ ['_']) ++ ds by simp,
        show key.length + 1 + m = (key ++ ['_']).length + m by simp,
        List.drop_append]
    simp only [subAt, hdrop, decide_eq_true_eq] at hcon
    have hmem : '_' ∈ ds := by
      cases hd : ds.drop m with
      | nil =>
        rw [hd] at hcon
        exact absurd hcon (by simp)
      | cons x xs =>
        rw [hd] at hcon
        have hx : x = '_' := by
          have hinj := (List.cons.injEq x (List.take 0 xs) '_' []).mp
            (by simpa using hcon)
          exact hinj.1
        subst hx
        exact (List.drop_subset m ds) (hd ▸ List.mem_cons_self _ _)
    exact hds '_' hmem rfl

theorem natToChars_no_underscore (n : Nat) :
    ∀ d ∈ natToChars n, d ≠ '_' := by
  intro d hd he
  subst he
  have := natToChars_all_digits n '_' hd
  simp [isDigitC] at this

theorem mkActionId_take (key : List Char) (i : Nat) :
    (mkActionId key i).take 9 = "ask_user_".data := by
  rw [mkActionId]
  exact List.take_left' rfl

theorem mkActionId_drop (key : List Char) (i : Nat) :
    (mkActionId key i).drop 9 = key ++ '_' :: natToChars i := by
  rw [mkActionId]
  exact List.drop_left' rfl

/-- The button handler on a well-formed action id for a registered key:
record the value against the first question and set the event. -/
theorem handler_mkActionId (tbl : PendingTable) (key : List Char) (i : Nat)
    (value : List Char) (pq : PendingQuestion)
    (hlook : lookupPending tbl key = some pq) :
    askUserActionHandler tbl (mkActionId key i) value =
      setPending tbl key
        (match pq.questions with
        | [] => { pq with eventSet := true }
        | q0 :: _ => ⟨pq.questions, (q0, value) :: pq.answers, true⟩) := by
  rw [askUserActionHandler, if_pos (mkActionId_take key i), mkActionId_drop,
    rfind_underscore_sep key (natToChars i) (natToChars_no_underscore i)]
  simp [List.take_left, hlook, setPending]

/-- The button handler on a well-formed action id for an unregistered key
leaves the table unchanged. -/
theorem handler_mkActionId_missing (tbl : PendingTable) (key : List Char)
    (i : Nat) (value : List Char)
    (hlook : lookupPending tbl key = none) :
    askUserActionHandler tbl (mkActionId key i) value = tbl := by
  rw [askUserActionHandler, if_pos (mkActionId_take key i), mkActionId_drop,
    rfind_underscore_sep key (natToChars i) (natToChars_no_underscore i)]
  simp [List.take_left, hlook]

/-- C4: the interactive rendezvous. When a button answer whose
`action_id` carries the matching interaction key is delivered while `ask`
waits, `ask` returns exactly the recorded answer (the selected value
keyed by the first question's text); when no matching answer arrives
within the window, `ask` returns the empty answer set after the
configured timeout (`askTimeoutSeconds = 300`); when posting the question
to the channel fails, `ask` returns the empty answer set at once; and in
every one of the three outcomes the pending entry for the interaction key
is removed from the in-memory table. Handlers for foreign action ids or
unregistered keys never touch the table. -/
theorem C4_rendezvous (tbl : PendingTable) (channel userId q0 value : List Char)
    (qs : List (List Char)) (idx : Nat)
    (clicksF : List (List Char × List Char)) :
    (∃ tbl', askUser tbl channel userId (q0 :: qs) true
        [(mkActionId (interactionKey channel userId) idx, value)] =
          ([(q0, value)], tbl') ∧
        lookupPending tbl' (interactionKey channel userId) = none)
    ∧ (∃ tbl', askUser tbl channel userId (q0 :: qs) true [] = ([], tbl') ∧
        lookupPending tbl' (interactionKey channel userId) = none)
    ∧ (∃ tbl', askUser tbl channel userId (q0 :: qs) false clicksF =
          ([], tbl') ∧
        lookupPending tbl' (interactionKey channel userId) = none)
    ∧ (∀ (t : PendingTable) (aid v : List Char),
        aid.take 9 ≠ "ask_user_".data → askUserActionHandler t aid v = t)
    ∧ (∀ (t : PendingTable) (k : List Char) (i : Nat) (v : List Char),
        lookupPending t k = none →
        askUserActionHandler t (mkActionId k i) v = t)
    ∧ askTimeoutSeconds = 300 := by
  refine ⟨?_, ?_, ?_, ?_, handler_mkActionId_missing, rfl⟩
  · refine ⟨erasePending (setPending
        (setPending tbl (interactionKey channel userId) ⟨q0 :: qs, [], false⟩)
        (interactionKey channel userId) ⟨q0 :: qs, [(q0, value)], true⟩)
        (interactionKey channel userId),
      ?_, lookupPending_erase _ _⟩
    rw [askUser, if_neg (by simp), if_neg (by simp)]
    rw [List.foldl_cons, List.foldl_nil]
    rw [handler_mkActionId _ _ idx value ⟨q0 :: qs, [], false⟩
      (lookupPending_set_same _ _ _)]
    rw [askUserAwait]
    rw [show setPending
        (setPending tbl (interactionKey channel userId) ⟨q0 :: qs, [], false⟩)
        (interactionKey channel userId)
        (match (⟨q0 :: qs, [], false⟩ : PendingQuestion).questions with
          | [] => { (⟨q0 :: qs, [], false⟩ : PendingQuestion) with
              eventSet := true }
          | q0 :: _ => ⟨q0 :: qs, [(q0, value)], true⟩) =
      setPending
        (setPending tbl (interactionKey channel userId) ⟨q0 :: qs, [], false⟩)
        (interactionKey channel userId)
        ⟨q0 :: qs, [(q0, value)], true⟩ from rfl]
    rw [lookupPending_set_same]
    rfl
  · refine ⟨erasePending
        (setPending tbl (interactionKey channel userId) ⟨q0 :: qs, [], false⟩)
        (interactionKey channel userId),
      ?_, lookupPending_erase _ _⟩
    rw [askUser, if_neg (by simp), if_neg (by simp)]
    rw [List.foldl_nil, askUserAwait, lookupPending_set_same]
    rfl
  · refine ⟨erasePending
        (setPending tbl (interactionKey channel userId) ⟨q0 :: qs, [], false⟩)
        (interactionKey channel userId),
      ?_, lookupPending_erase _ _⟩
    rw [askUser, if_neg (by simp), if_pos (by simp)]
  · intro t aid v haid
    rw [askUserActionHandler, if_neg haid]

/-! ## Project router: `resolve_project`
(`ProjectChannelManager.resolve_project`)

The registry and repository live in source files not present here
(`projects/registry.py`, `storage/repositories.py`); their lookups are
modelled from the spec as plain searches. -/

/-- A project definition (spec §3): unique slug, optional static channel
binding, mention gating flag, enabled flag. -/
structure ProjectDefinition where
  slug : List Char
  name : List Char
  channel_id : Option (List Char)
  require_mention : Bool
  enabled : Bool
  deriving DecidableEq, Repr

/-- The manager state `resolve_project` consults: the runtime channel map
cache, the registry's project list, and the persisted channel-to-slug
mappings. -/
structure ProjectChannelManager where
  channelMap : List (List Char × ProjectDefinition)
  registry : List ProjectDefinition
  dbMappings : List (List Char × List Char)
  deriving DecidableEq, Repr

/-- Runtime map read, `self._channel_map` membership and access. -/
def lookupChannelMap (m : List (List Char × ProjectDefinition))
    (cid : List Char) : Option ProjectDefinition :=
  (List.find? (fun p => p.1 == cid) m).map (fun p => p.2)

/-- Modelled from the spec: `registry.get_by_channel_id` (the registry
source file is not under `src/`) — the project whose static `channel_id`
binding equals the channel. -/
def registryGetByChannelId (reg : List ProjectDefinition) (cid : List Char) :
    Option ProjectDefinition :=
  List.find? (fun p => p.channel_id == some cid) reg

/-- Modelled from the spec: `registry.get_by_slug` — the project with the
given unique slug. -/
def registryGetBySlug (reg : List ProjectDefinition) (slug : List Char) :
    Option ProjectDefinition :=
  List.find? (fun p => p.slug == slug) reg

/-- Modelled from the spec: `repository.get_by_channel_id` (the storage
source file is not under `src/`) — the persisted dynamic channel-to-project
mapping's slug for the channel. -/
def repoGetByChannelId (maps : List (List Char × List Char))
    (cid : List Char) : Option (List Char) :=
  (List.find? (fun p => p.1 == cid) maps).map (fun p => p.2)

/-- The database-mapping tail of `resolve_project`. -/
def resolveFromDb (mgr : ProjectChannelManager) (cid : List Char) :
    Option ProjectDefinition × ProjectChannelManager :=
  match repoGetByChannelId mgr.dbMappings cid with
  | some slug =>
    match registryGetBySlug mgr.registry slug with
    | some project =>
      if project.enabled then
        (some project,
          { mgr with channelMap := (cid, project) :: mgr.channelMap })
      else (none, mgr)
    | none => (none, mgr)
  | none => (none, mgr)

/-- `resolve_project`: empty channel ids resolve to nothing; then the
runtime map (returning `None` for a cached disabled project), then the
registry binding, then the database mapping, caching registry and
database hits. -/
def resolveProject (mgr : ProjectChannelManager) (cid : List Char) :
    Option ProjectDefinition × ProjectChannelManager :=
  if cid.isEmpty then (none, mgr)
  else
    match lookupChannelMap mgr.channelMap cid with
    | some project =>
      if project.enabled then (some project, mgr) else (none, mgr)
    | none =>
      match registryGetByChannelId mgr.registry cid with
      | some project =>
        if project.enabled then
          (some project,
            { mgr with channelMap := (cid, project) :: mgr.channelMap })
        else resolveFromDb mgr cid
      | none => resolveFromDb mgr cid

theorem resolveFromDb_enabled (mgr : ProjectChannelManager) (cid : List Char) :
    ∀ p, (resolveFromDb mgr cid).1 = some p → p.enabled = true := by
  intro p hp
  unfold resolveFromDb at hp
  split at hp
  · split at hp
    · split at hp
      · next hen =>
        simp only at hp
        cases hp
        exact hen
      · exact absurd hp (by simp)
    · exact absurd hp (by simp)
  · exact absurd hp (by simp)

/-- C10: `resolve_project` never returns a disabled project: any project
it returns is enabled, and on each of its three resolution paths — the
in-memory runtime map (even when the disabled project is already cached),
the static registry binding (with no database fallback available), and
the persisted database mapping — a disabled mapped project yields
`none`. -/
theorem C10_resolve_disabled (mgr : ProjectChannelManager) (cid : List Char) :
    (∀ p, (resolveProject mgr cid).1 = some p → p.enabled = true)
    ∧ (∀ p, lookupChannelMap mgr.channelMap cid = some p →
        p.enabled = false → (resolveProject mgr cid).1 = none)
    ∧ (∀ p, lookupChannelMap mgr.channelMap cid = none →
        registryGetByChannelId mgr.registry cid = some p →
        p.enabled = false → repoGetByChannelId mgr.dbMappings cid = none →
        (resolveProject mgr cid).1 = none)
    ∧ (∀ slug p, lookupChannelMap mgr.channelMap cid = none →
        registryGetByChannelId mgr.registry cid = none →
        repoGetByChannelId mgr.dbMappings cid = some slug →
        registryGetBySlug mgr.registry slug = some p →
        p.enabled = false → (resolveProject mgr cid).1 = none) := by
  refine ⟨?_, ?_, ?_, ?_⟩
  · intro p hp
    unfold resolveProject at hp
    split at hp
    · exact absurd hp (by simp)
    · split at hp
      · split at hp
        · next hen =>
          simp only at hp
          cases hp
          exact hen
        · exact absurd hp (by simp)
      · split at hp
        · split at hp
          · next hen =>
            simp only at hp
            cases hp
            exact hen
          · exact resolveFromDb_enabled mgr cid p hp
        · exact resolveFromDb_enabled mgr cid p hp
  · intro p hmap hdis
    by_cases hcid : cid.isEmpty
    · rw [resolveProject, if_pos hcid]
    · rw [resolveProject, if_neg hcid]
      simp [hmap, hdis]
  · intro p hmap hreg hdis hdb
    by_cases hcid : cid.isEmpty
    · rw [resolveProject, if_pos hcid]
    · rw [resolveProject, if_neg hcid]
      simp [hmap, hreg, hdis, resolveFromDb, hdb]
  · intro slug p hmap hreg hdb hslug hdis
    by_cases hcid : cid.isEmpty
    · rw [resolveProject, if_pos hcid]
    · rw [resolveProject, if_neg hcid]
      simp [hmap, hreg, resolveFromDb, hdb, hslug, hdis]

end CCSlack
